import Mathlib

/-!
# The caching layer of the storage engine: `BlockCache` and `StoragePageCache`

A shallow embedding of `be/src/block_cache/block_cache.cpp` and
`be/src/storage/page_cache.cpp`.

* Machine integers are natural numbers with explicit reduction modulo `2 ^ 64`.
  `off_t` is a signed 64-bit integer (an `Int`); `size_t` is unsigned.  The member
  `_block_size` is unsigned 64-bit: `std::min(size - off_in_buf, _block_size)` only
  compiles when both arguments have the type of `size - off_in_buf`, which is `size_t`.
  Hence every expression that mixes `offset` with `_block_size` or `size` is evaluated
  after converting `offset` to unsigned (`of_off_t`).
* The cache engine behind `BlockCache` and the LRU store behind `StoragePageCache` are
  collaborators whose code is not part of these two files.  They are records of
  operations over an explicit state; `traced` wraps one so that every call made on
  it is written to a log.
* A `const char*` / `char*` buffer is `Option (List Byte)`: `none` is the null pointer,
  `some b` a buffer whose bytes are `b`.  `buffer + n` is `b.drop n`.
* Logging (`LOG(WARNING)`) and memory accounting have no effect on the results modelled
  here and are left out.
-/

namespace starrocks

/-! ## Machine arithmetic -/

/-- A byte of a caller buffer or of a cached block. -/
abbrev Byte := UInt8

/-- An address held in a `const char*` out-parameter. -/
abbrev Addr := Nat

/-- Reduction to an unsigned 64-bit value (`size_t`). -/
def wrap64 (n : Nat) : Nat := n % 2 ^ 64

/-- The conversion of a signed 64-bit `off_t` to `size_t` that C++ applies when
`off_t` meets `size_t` in an arithmetic expression. -/
def of_off_t (x : Int) : Nat := (x % 2 ^ 64).toNat

/-- The `size_t` subtraction `a - b`, which wraps around below zero. -/
def sub64 (a b : Nat) : Nat := (a + (2 ^ 64 - b % 2 ^ 64)) % 2 ^ 64

/-! ## Status -/

/-- Modelled from the spec: the status codes of `common/status.h`, which is not among
the sources.  `OTHER` stands for every engine failure code not named here. -/
inductive TStatusCode
  | OK
  | INVALID_ARGUMENT
  | NOT_FOUND
  | INTERNAL_ERROR
  | OTHER (code : Nat)
  deriving DecidableEq, Repr

/-- Modelled from the spec: `Status` of `common/status.h`, a code and a message. -/
structure Status where
  code : TStatusCode
  msg : String
  deriving DecidableEq, Repr

/-- The value of `Status::OK()`. -/
def Status.OK : Status := ⟨TStatusCode.OK, ""⟩

/-- The value of `Status::InvalidArgument(msg)`. -/
def Status.InvalidArgument (msg : String) : Status := ⟨TStatusCode.INVALID_ARGUMENT, msg⟩

/-- The value of `Status::NotFound(msg)`. -/
def Status.NotFound (msg : String) : Status := ⟨TStatusCode.NOT_FOUND, msg⟩

/-- The test `Status::ok()`. -/
def Status.ok (st : Status) : Bool := decide (st.code = TStatusCode.OK)

/-- Equality of `StatusOr<size_t>` results is decidable. -/
instance instDecidableEqStatusOr : DecidableEq (Except Status Nat)
  | Except.ok a, Except.ok b =>
    if h : a = b then isTrue (by rw [h]) else isFalse (fun h2 => h (Except.ok.inj h2))
  | Except.error a, Except.error b =>
    if h : a = b then isTrue (by rw [h]) else isFalse (fun h2 => h (Except.error.inj h2))
  | Except.ok _, Except.error _ => isFalse (fun h => by cases h)
  | Except.error _, Except.ok _ => isFalse (fun h => by cases h)

/-! ## The cache engine interface -/

/-- Modelled from the spec: the `KeyValueCacheEngine` contract (`KvCache` of
`block_cache/kv_cache.h`, implemented by `FbCacheLib`; neither is among the sources).
The engine state is explicit.  `write_cache s key value ttl` is a put of the bytes
`value`; `read_cache s key` is a get: it answers the status of its `StatusOr<size_t>`
and, when that is OK, the bytes it copied to the pointer it was given, whose number is
the value of the `StatusOr`; `read_cache_zero_copy s key p` is given the current
content `p` of the out-parameter cell and returns its new content. -/
structure KvCache (σ : Type) where
  write_cache : σ → String → List Byte → Nat → Status × σ
  read_cache : σ → String → Status × List Byte × σ
  read_cache_zero_copy : σ → String → Addr → Status × Addr × σ
  remove_cache : σ → String → Status × σ

/-- One call made on the engine. -/
inductive EngineCall
  | put (key : String) (value : List Byte) (ttl : Nat)
  | get (key : String)
  | get_zero_copy (key : String)
  | remove (key : String)
  deriving DecidableEq, Repr

/-- The kind of an engine call. -/
inductive CallKind
  | put
  | get
  | get_zero_copy
  | remove
  deriving DecidableEq, Repr

/-- The kind of a call. -/
def EngineCall.kind : EngineCall → CallKind
  | EngineCall.put _ _ _ => CallKind.put
  | EngineCall.get _ => CallKind.get
  | EngineCall.get_zero_copy _ => CallKind.get_zero_copy
  | EngineCall.remove _ => CallKind.remove

/-- The sub-key a call is addressed to. -/
def EngineCall.key : EngineCall → String
  | EngineCall.put k _ _ => k
  | EngineCall.get k => k
  | EngineCall.get_zero_copy k => k
  | EngineCall.remove k => k

/-- The log of a traced engine: each call with the status the engine answered. -/
abbrev CallLog := List (EngineCall × Status)

/-- The engine `E` instrumented with a log: every operation behaves as in `E` and
appends the call and the status of its answer to the log. -/
def traced {σ : Type} (E : KvCache σ) : KvCache (σ × CallLog) where
  write_cache := fun s key value ttl =>
    let r := E.write_cache s.1 key value ttl
    (r.1, (r.2, s.2 ++ [(EngineCall.put key value ttl, r.1)]))
  read_cache := fun s key =>
    let r := E.read_cache s.1 key
    (r.1, r.2.1, (r.2.2, s.2 ++ [(EngineCall.get key, r.1)]))
  read_cache_zero_copy := fun s key p =>
    let r := E.read_cache_zero_copy s.1 key p
    (r.1, r.2.1, (r.2.2, s.2 ++ [(EngineCall.get_zero_copy key, r.1)]))
  remove_cache := fun s key =>
    let r := E.remove_cache s.1 key
    (r.1, (r.2, s.2 ++ [(EngineCall.remove key, r.1)]))

/-! ## BlockCache -/

/-- The members of `BlockCache`: the block size fixed by `init` and the engine. -/
structure BlockCache (σ : Type) where
  _block_size : Nat
  _kv_cache : KvCache σ

/-- The sub-key of a block, `fmt::format("{}/{}", cache_key, index)`: the base key, a
slash, and the decimal digits of the index. -/
def block_key (cache_key : String) (index : Nat) : String :=
  cache_key ++ "/" ++ toString index

/-- The bytes a `memcpy` of `src` to `dst + off` leaves in the buffer `dst`; bytes
that would fall past the end of `dst` are outside the caller's buffer and are not
represented. -/
def copy_into (dst : List Byte) (off : Nat) (src : List Byte) : List Byte :=
  dst.take off ++ src.take (dst.length - off) ++ dst.drop (off + src.length)

/-- The loop of `BlockCache::write_cache`,
`for (index = start; index < end; ++index)`, with `n = end - index` iterations left. -/
def write_blocks {σ : Type} (c : BlockCache σ) (cache_key : String) (size : Nat)
    (buffer : List Byte) (ttl_seconds : Nat) : Nat → Nat → Nat → σ → Status × σ
  | 0, _, _, s => (Status.OK, s)
  | n + 1, index, off_in_buf, s =>
    let block_buf := buffer.drop off_in_buf
    let block_size := min (sub64 size off_in_buf) c._block_size
    let r := c._kv_cache.write_cache s (block_key cache_key index)
      (block_buf.take block_size) ttl_seconds
    if r.1.ok then
      write_blocks c cache_key size buffer ttl_seconds n (index + 1)
        (wrap64 (off_in_buf + block_size)) r.2
    else (r.1, r.2)

/-- Embedding of `BlockCache::write_cache`. -/
def BlockCache.write_cache {σ : Type} (c : BlockCache σ) (s : σ) (cache_key : String)
    (offset : Int) (size : Nat) (buffer : Option (List Byte)) (ttl_seconds : Nat) :
    Status × σ :=
  if of_off_t offset % c._block_size ≠ 0 then
    (Status.InvalidArgument
      ("offset must be aligned by block size " ++ toString c._block_size), s)
  else
    match buffer with
    | none => (Status.InvalidArgument "invalid data buffer", s)
    | some b =>
      if size = 0 then (Status.OK, s)
      else
        let start_block_index := of_off_t offset / c._block_size
        let end_block_index :=
          wrap64 (sub64 (wrap64 (of_off_t offset + size)) 1 / c._block_size + 1)
        write_blocks c cache_key size b ttl_seconds
          (end_block_index - start_block_index) start_block_index 0 s

/-- The loop of `BlockCache::read_cache`, with `n = end - index` iterations left.
The engine copies the bytes it returns to `buffer + off_in_buf`. -/
def read_blocks {σ : Type} (c : BlockCache σ) (cache_key : String) :
    Nat → Nat → Nat → Nat → List Byte → σ → Except Status Nat × List Byte × σ
  | 0, _, _, read_size, buffer, s => (Except.ok read_size, buffer, s)
  | n + 1, index, off_in_buf, read_size, buffer, s =>
    let res := c._kv_cache.read_cache s (block_key cache_key index)
    if res.1.ok then
      read_blocks c cache_key n (index + 1) (wrap64 (off_in_buf + c._block_size))
        (wrap64 (read_size + res.2.1.length)) (copy_into buffer off_in_buf res.2.1) res.2.2
    else (Except.error res.1, buffer, res.2.2)

/-- Embedding of `BlockCache::read_cache`: the `StatusOr<size_t>` result, the caller's
buffer afterwards, and the engine state. -/
def BlockCache.read_cache {σ : Type} (c : BlockCache σ) (s : σ) (cache_key : String)
    (offset : Int) (size : Nat) (buffer : Option (List Byte)) :
    Except Status Nat × Option (List Byte) × σ :=
  if of_off_t offset % c._block_size ≠ 0 then
    (Except.error (Status.InvalidArgument
      ("offset and size must be aligned by block size " ++ toString c._block_size)),
      buffer, s)
  else
    match buffer with
    | none => (Except.error (Status.InvalidArgument "invalid data buffer"), none, s)
    | some b =>
      if size = 0 then (Except.ok 0, some b, s)
      else
        let start_block_index := of_off_t offset / c._block_size
        let end_block_index :=
          wrap64 (sub64 (wrap64 (of_off_t offset + size)) 1 / c._block_size + 1)
        let r := read_blocks c cache_key (end_block_index - start_block_index)
          start_block_index 0 0 b s
        (r.1, some r.2.1, r.2.2)

/-- Embedding of `BlockCache::read_cache_zero_copy`.  `buf` is the `const char**`
argument: `none` when it is null, otherwise the pointer currently stored in the cell
it points to.  The result holds the cell's content afterwards. -/
def BlockCache.read_cache_zero_copy {σ : Type} (c : BlockCache σ) (s : σ)
    (cache_key : String) (offset : Int) (size : Nat) (buf : Option Addr) :
    Status × Option Addr × σ :=
  if of_off_t offset % c._block_size ≠ 0 then
    (Status.InvalidArgument
      ("offset and size must be aligned by block size " ++ toString c._block_size),
      buf, s)
  else
    match buf with
    | none => (Status.InvalidArgument "invalid data buffer", none, s)
    | some p =>
      if size = 0 then (Status.OK, some p, s)
      else
        let index := of_off_t offset / c._block_size
        let r := c._kv_cache.read_cache_zero_copy s (block_key cache_key index) p
        (r.1, some r.2.1, r.2.2)

/-- The loop of `BlockCache::remove_cache`, with `n = end - index` iterations left. -/
def remove_blocks {σ : Type} (c : BlockCache σ) (cache_key : String) :
    Nat → Nat → σ → Status × σ
  | 0, _, s => (Status.OK, s)
  | n + 1, index, s =>
    let r := c._kv_cache.remove_cache s (block_key cache_key index)
    if r.1.ok then remove_blocks c cache_key n (index + 1) r.2
    else (r.1, r.2)

/-- Embedding of `BlockCache::remove_cache`. -/
def BlockCache.remove_cache {σ : Type} (c : BlockCache σ) (s : σ) (cache_key : String)
    (offset : Int) (size : Nat) : Status × σ :=
  if of_off_t offset % c._block_size ≠ 0 then
    (Status.InvalidArgument
      ("offset and size must be aligned by block size " ++ toString c._block_size), s)
  else if size = 0 then (Status.OK, s)
  else
    let start_block_index := of_off_t offset / c._block_size
    let end_block_index :=
      wrap64 (sub64 (wrap64 (of_off_t offset + size)) 1 / c._block_size + 1)
    remove_blocks c cache_key (end_block_index - start_block_index) start_block_index s

/-! ## Engines used to state and to instantiate the properties -/

/-- Modelled from the spec: an engine in which a put stores the bytes under the sub-key
and a get copies back exactly the bytes stored last under it (no eviction, no expiry:
the ttl is accepted and ignored).  The state is the list of stored entries, newest
first.  This model keeps no addresses: its zero-copy get always fails and leaves the
out-parameter as it was. -/
def map_engine : KvCache (List (String × List Byte)) where
  write_cache := fun s key value _ => (Status.OK, (key, value) :: s)
  read_cache := fun s key =>
    match s.lookup key with
    | some value => (Status.OK, value, s)
    | none => (Status.NotFound "not found", [], s)
  read_cache_zero_copy := fun s _ p =>
    (Status.mk TStatusCode.INTERNAL_ERROR "zero copy is not supported", p, s)
  remove_cache := fun s key => (Status.OK, s.filter (fun e => e.1 != key))

/-- An engine whose state counts the calls it may still serve: each operation
succeeds (storing and returning nothing) while the count is positive and fails with
an internal error once it is zero.  It stands for an engine that starts to fail in the
middle of a block range. -/
def failing_engine : KvCache Nat where
  write_cache := fun s _ _ _ =>
    if s = 0 then (Status.mk TStatusCode.INTERNAL_ERROR "engine failure", 0)
    else (Status.OK, s - 1)
  read_cache := fun s _ =>
    if s = 0 then (Status.mk TStatusCode.INTERNAL_ERROR "engine failure", [], 0)
    else (Status.OK, [], s - 1)
  read_cache_zero_copy := fun s _ p =>
    if s = 0 then (Status.mk TStatusCode.INTERNAL_ERROR "engine failure", p, 0)
    else (Status.OK, p, s - 1)
  remove_cache := fun s _ =>
    if s = 0 then (Status.mk TStatusCode.INTERNAL_ERROR "engine failure", 0)
    else (Status.OK, s - 1)

/-! ## Notions used in the statements -/

/-- The ceiling of the quotient `a / b` of the spec, taken in the rationals. -/
def ceil_div (a b : Nat) : Nat := ⌈(a : ℚ) / (b : ℚ)⌉₊

/-- The block cache with block size `bs` over the engine `E` instrumented with a log. -/
def traced_cache {σ : Type} (E : KvCache σ) (bs : Nat) : BlockCache (σ × CallLog) :=
  ⟨bs, traced E⟩

/-- The kind and sub-key of every logged call, in order. -/
def call_targets (log : CallLog) : List (CallKind × String) :=
  log.map (fun e => (e.1.kind, e.1.key))

/-- The payload of a put; other calls carry none. -/
def EngineCall.payload : EngineCall → List Byte
  | EngineCall.put _ value _ => value
  | _ => []

/-- The shape of the log of a fail-fast loop of `n` iterations that returned `st`:
either all `n` calls were made, all succeeded and `st` is OK, or the log ends with the
first failed call, whose status is `st`. -/
def fail_fast_log (log : CallLog) (st : Status) (n : Nat) : Prop :=
  (log.length = n ∧ st = Status.OK ∧ ∀ e ∈ log, e.2.ok = true) ∨
  (∃ init last, log = init ++ [last] ∧ (∀ e ∈ init, e.2.ok = true) ∧
    last.2.ok = false ∧ st = last.2)

/-- The status carried by a `StatusOr<size_t>`: OK when it holds a value. -/
def status_of (r : Except Status Nat) : Status :=
  match r with
  | Except.ok _ => Status.OK
  | Except.error st => st

/-- The put calls the loop of `write_cache` makes when no put fails, as the loop
computes them: `n` iterations from block `index` and buffer offset `off_in_buf`. -/
def write_calls (block_size : Nat) (cache_key : String) (size : Nat) (buffer : List Byte)
    (ttl_seconds : Nat) : Nat → Nat → Nat → List EngineCall
  | 0, _, _ => []
  | n + 1, index, off_in_buf =>
    EngineCall.put (block_key cache_key index)
        ((buffer.drop off_in_buf).take (min (sub64 size off_in_buf) block_size))
        ttl_seconds ::
      write_calls block_size cache_key size buffer ttl_seconds n (index + 1)
        (wrap64 (off_in_buf + min (sub64 size off_in_buf) block_size))

/-- The number a list of decimal digit characters denotes. -/
def decimal_value (cs : List Char) : Nat :=
  cs.foldl (fun a c => 10 * a + (c.toNat - 48)) 0

/-! ## StoragePageCache -/

/-- The two priority classes of `CachePriority`. -/
inductive CachePriority
  | NORMAL
  | DURABLE
  deriving DecidableEq, Repr

/-- An opaque handle of the LRU store, a `Cache::Handle*`. -/
abbrev LruHandle := Nat

/-- The deleter `insert` hands to the store, the lambda that runs
`delete[] (uint8_t*) value`. -/
inductive Deleter
  | delete_uint8_array
  deriving DecidableEq, Repr

/-- Modelled from the spec: the `LruStore` contract (`Cache` of `util/lru_cache.h`,
which is not among the sources).  The store state is explicit.  `lookup` answers a
handle or nothing; `insert` takes the encoded key, the value, its charge, the deleter
and the priority and answers a handle; `release` gives back one reference;
`value_slice` reads the bytes a handle refers to. -/
structure Cache (τ : Type) where
  lookup : τ → String → Option LruHandle × τ
  insert : τ → String → List Byte → Nat → Deleter → CachePriority → LruHandle × τ
  release : τ → LruHandle → τ
  set_capacity : τ → Nat → τ
  get_capacity : τ → Nat
  value_slice : τ → LruHandle → List Byte

/-- Modelled from the spec: `PageCacheHandle` of `storage/page_cache.h` (not among the
sources), the scoped owner of one reference to a store entry; `none` is the empty
handle a default-constructed object holds. -/
structure PageCacheHandle where
  _handle : Option LruHandle
  deriving DecidableEq, Repr

/-- Modelled from the spec: the assignment `*handle = PageCacheHandle(cache, h)`.  The
caller's object takes the new handle, and the handle it held before, if any, is
destroyed, which releases its reference. -/
def assign_handle {τ : Type} (S : Cache τ) (t : τ) (old : PageCacheHandle)
    (h : LruHandle) : PageCacheHandle × τ :=
  match old._handle with
  | none => (PageCacheHandle.mk (some h), t)
  | some h_old => (PageCacheHandle.mk (some h), S.release t h_old)

/-- The bytes a page cache handle gives access to (`PageCacheHandle::data()`); an
empty handle gives none. -/
def PageCacheHandle.data {τ : Type} (S : Cache τ) (t : τ) (h : PageCacheHandle) :
    List Byte :=
  match h._handle with
  | none => []
  | some lru_handle => S.value_slice t lru_handle

/-- The members of `StoragePageCache` that the operations use: the LRU store `_cache`.
The key type `κ` and its `encode()` come from `storage/page_cache.h`, which is not
among the sources; they are parameters. -/
structure StoragePageCache (τ κ : Type) where
  _cache : Cache τ
  encode : κ → String

/-- Embedding of `StoragePageCache::set_capacity`. -/
def StoragePageCache.set_capacity {τ κ : Type} (c : StoragePageCache τ κ) (t : τ)
    (capacity : Nat) : τ :=
  c._cache.set_capacity t capacity

/-- Embedding of `StoragePageCache::get_capacity`. -/
def StoragePageCache.get_capacity {τ κ : Type} (c : StoragePageCache τ κ) (t : τ) : Nat :=
  c._cache.get_capacity t

/-- Embedding of `StoragePageCache::lookup`: the returned flag, the caller's handle
object afterwards, and the store state. -/
def StoragePageCache.lookup {τ κ : Type} (c : StoragePageCache τ κ) (t : τ) (key : κ)
    (handle : PageCacheHandle) : Bool × PageCacheHandle × τ :=
  let r := c._cache.lookup t (c.encode key)
  match r.1 with
  | none => (false, handle, r.2)
  | some lru_handle =>
    let a := assign_handle c._cache r.2 handle lru_handle
    (true, a.1, a.2)

/-- Embedding of `StoragePageCache::insert`: the caller's handle object afterwards and
the store state.  `data` is the slice: its pointer is the buffer handed over, its size
the length of that buffer. -/
def StoragePageCache.insert {τ κ : Type} (c : StoragePageCache τ κ) (t : τ) (key : κ)
    (data : List Byte) (handle : PageCacheHandle) (in_memory : Bool) :
    PageCacheHandle × τ :=
  let priority := if in_memory then CachePriority.DURABLE else CachePriority.NORMAL
  let r := c._cache.insert t (c.encode key) data data.length Deleter.delete_uint8_array
    priority
  assign_handle c._cache r.2 handle r.1

/-- One call made on the LRU store. -/
inductive StoreCall
  | lookup (key : String)
  | insert (key : String) (value : List Byte) (charge : Nat) (deleter : Deleter)
      (priority : CachePriority)
  | release (h : LruHandle)
  | set_capacity (capacity : Nat)
  deriving DecidableEq, Repr

/-- The store `S` instrumented with a log of the calls that change or query its
entries. -/
def traced_store {τ : Type} (S : Cache τ) : Cache (τ × List StoreCall) where
  lookup := fun t key =>
    ((S.lookup t.1 key).1, ((S.lookup t.1 key).2, t.2 ++ [StoreCall.lookup key]))
  insert := fun t key value charge deleter priority =>
    ((S.insert t.1 key value charge deleter priority).1,
      ((S.insert t.1 key value charge deleter priority).2,
        t.2 ++ [StoreCall.insert key value charge deleter priority]))
  release := fun t h => (S.release t.1 h, t.2 ++ [StoreCall.release h])
  set_capacity := fun t capacity =>
    (S.set_capacity t.1 capacity, t.2 ++ [StoreCall.set_capacity capacity])
  get_capacity := fun t => S.get_capacity t.1
  value_slice := fun t h => S.value_slice t.1 h

/-! ## A model of the LRU store -/

/-- Modelled from the spec: one entry of the LRU store: its handle, key, value, charge
and priority, the number of live handles (`refs`), and whether a lookup can still find
it (`in_cache`; an entry replaced by a newer one under the same key no longer is). -/
structure LruEntry where
  handle : LruHandle
  key : String
  value : List Byte
  charge : Nat
  priority : CachePriority
  refs : Nat
  in_cache : Bool
  deriving DecidableEq, Repr

/-- Modelled from the spec: the state of the LRU store: the capacity bound and the
entries, most recently used first. -/
structure LruStore where
  capacity : Nat
  entries : List LruEntry
  next_handle : LruHandle
  deriving DecidableEq, Repr

/-- Modelled from the spec: the usage of the store, the charges of the entries that
are in the cache. -/
def lru_usage (entries : List LruEntry) : Nat :=
  ((entries.filter (fun e => e.in_cache)).map (fun e => e.charge)).sum

/-- Modelled from the spec: an entry may be evicted when it is in the cache and no
handle to it is alive. -/
def LruEntry.evictable (e : LruEntry) (p : CachePriority) : Bool :=
  e.in_cache && decide (e.refs = 0) && decide (e.priority = p)

/-- Modelled from the spec: remove the least recently used (last) entry of priority
`p` that may be evicted; `none` when there is no such entry. -/
def evict_last (p : CachePriority) : List LruEntry → Option (List LruEntry)
  | [] => none
  | e :: rest =>
    match evict_last p rest with
    | some rest2 => some (e :: rest2)
    | none => if e.evictable p then some rest else none

/-- Modelled from the spec: while the usage exceeds the capacity, evict
reference-count-zero entries by recency, NORMAL before DURABLE; stop when none is
left.  At most one entry goes per step, so `fuel = entries.length` steps suffice. -/
def lru_evict (capacity : Nat) : Nat → List LruEntry → List LruEntry
  | 0, entries => entries
  | fuel + 1, entries =>
    if lru_usage entries ≤ capacity then entries
    else
      match evict_last CachePriority.NORMAL entries with
      | some rest => lru_evict capacity fuel rest
      | none =>
        match evict_last CachePriority.DURABLE entries with
        | some rest => lru_evict capacity fuel rest
        | none => entries

/-- Modelled from the spec: what an insert under `key` does to an older entry: an
entry in the cache under the same key is replaced; it is dropped when no handle to it
is alive and otherwise kept, out of the cache, for its holders. -/
def lru_replace (key : String) (e : LruEntry) : Option LruEntry :=
  if e.in_cache && decide (e.key = key) then
    if e.refs = 0 then none else some { e with in_cache := false }
  else some e

/-- Modelled from the spec: the LRU store, a capacity-bounded, priority-aware LRU
container that hands out reference-counted handles.  `insert` puts the new entry in
front with one reference (the returned handle) and then evicts; `lookup` returns the
entry in the cache under the key, takes a reference and refreshes its recency;
`release` gives a reference back and frees an entry that is out of the cache once
its last handle is gone; `set_capacity` changes the bound and evicts. -/
def lru_store : Cache LruStore where
  lookup := fun t key =>
    match t.entries.find? (fun e => e.in_cache && decide (e.key = key)) with
    | none => (none, t)
    | some e =>
      (some e.handle,
        LruStore.mk t.capacity
          ({ e with refs := e.refs + 1 } ::
            t.entries.filter (fun x => decide (x.handle ≠ e.handle)))
          t.next_handle)
  insert := fun t key value charge _ priority =>
    (t.next_handle,
      LruStore.mk t.capacity
        (lru_evict t.capacity (t.entries.length + 1)
          (LruEntry.mk t.next_handle key value charge priority 1 true ::
            t.entries.filterMap (lru_replace key)))
        (t.next_handle + 1))
  release := fun t h =>
    LruStore.mk t.capacity
      ((t.entries.map
          (fun e => if e.handle = h then { e with refs := e.refs - 1 } else e)).filter
        (fun e => e.in_cache || decide (e.refs ≠ 0)))
      t.next_handle
  set_capacity := fun t capacity =>
    LruStore.mk capacity (lru_evict capacity t.entries.length t.entries) t.next_handle
  get_capacity := fun t => t.capacity
  value_slice := fun t h =>
    match t.entries.find? (fun e => decide (e.handle = h)) with
    | none => []
    | some e => e.value

/-- The store holds, in front, an entry in the cache with handle `h`, key `k` and
value `v`. -/
def front_entry (t : LruStore) (h : LruHandle) (k : String) (v : List Byte) : Prop :=
  ∃ e rest, t.entries = e :: rest ∧ e.handle = h ∧ e.key = k ∧ e.value = v ∧
    e.in_cache = true

/-! ## Sequences of page cache calls -/

/-- One call on the page cache: an `insert` with its key, data, the caller's handle
object and the `in_memory` flag, or a `set_capacity`. -/
inductive PageCacheOp (κ : Type)
  | insert (key : κ) (data : List Byte) (handle : PageCacheHandle) (in_memory : Bool)
  | set_capacity (capacity : Nat)

/-- The store after one call on the page cache. -/
def apply_op {τ κ : Type} (c : StoragePageCache τ κ) (t : τ) : PageCacheOp κ → τ
  | PageCacheOp.insert key data handle in_memory => (c.insert t key data handle in_memory).2
  | PageCacheOp.set_capacity capacity => c.set_capacity t capacity

/-- The store after a sequence of calls on the page cache, in order. -/
def run_ops {τ κ : Type} (c : StoragePageCache τ κ) (t : τ) : List (PageCacheOp κ) → τ
  | [] => t
  | op :: rest => run_ops c (apply_op c t op) rest

/-- The number of handles to the store entry `h` that a call destroys: an `insert`
whose handle object held `h` before it was assigned the new handle destroys one. -/
def PageCacheOp.releases {κ : Type} (h : LruHandle) : PageCacheOp κ → Nat
  | PageCacheOp.insert _ _ handle _ => if handle._handle = some h then 1 else 0
  | PageCacheOp.set_capacity _ => 0

/-- The number of handles to the store entry `h` that a sequence of calls destroys. -/
def releases_of {κ : Type} (h : LruHandle) : List (PageCacheOp κ) → Nat
  | [] => 0
  | op :: rest => op.releases h + releases_of h rest

/-- The entry `e2` is the entry `e1` after `k` of its handles were destroyed: the same
handle, key, value, charge and priority, and `k` references fewer.  (It may have left
the cache, replaced under its key, but it has not been evicted or freed.) -/
def entry_after (e1 e2 : LruEntry) (k : Nat) : Prop :=
  e2.handle = e1.handle ∧ e2.key = e1.key ∧ e2.value = e1.value ∧
    e2.charge = e1.charge ∧ e2.priority = e1.priority ∧ e2.refs + k = e1.refs

/-! ## Decimal rendering and sub-keys -/

theorem toDigitsCore_acc (fuel : Nat) : ∀ (n : Nat) (ds : List Char),
    Nat.toDigitsCore 10 fuel n ds = Nat.toDigitsCore 10 fuel n [] ++ ds := by
  induction fuel with
  | zero => intro n ds; simp [Nat.toDigitsCore]
  | succ f ih =>
    intro n ds
    simp only [Nat.toDigitsCore]
    split
    · simp
    · rw [ih (n / 10) (Nat.digitChar (n % 10) :: ds), ih (n / 10) [Nat.digitChar (n % 10)]]
      simp

theorem digitChar_value (d : Nat) (h : d < 10) : (Nat.digitChar d).toNat - 48 = d := by
  interval_cases d <;> rfl

theorem digitChar_ne_slash (d : Nat) (h : d < 10) : Nat.digitChar d ≠ '/' := by
  interval_cases d <;> decide

theorem decimal_value_toDigitsCore (fuel : Nat) : ∀ n : Nat, n < fuel →
    decimal_value (Nat.toDigitsCore 10 fuel n []) = n := by
  induction fuel with
  | zero => intro n h; omega
  | succ f ih =>
    intro n h
    simp only [Nat.toDigitsCore]
    have hd : n % 10 < 10 := Nat.mod_lt _ (by decide)
    split
    · next h0 =>
      simp only [decimal_value, List.foldl_cons, List.foldl_nil]
      rw [digitChar_value _ hd]; omega
    · next h0 =>
      rw [toDigitsCore_acc]
      have hlt : n / 10 < f := by omega
      have := ih (n / 10) hlt
      simp only [decimal_value] at this ⊢
      rw [List.foldl_append, this]
      simp only [List.foldl_cons, List.foldl_nil]
      rw [digitChar_value _ hd]; omega

theorem slash_not_mem_toDigitsCore (fuel : Nat) : ∀ n : Nat,
    '/' ∉ Nat.toDigitsCore 10 fuel n [] := by
  induction fuel with
  | zero => intro n; simp [Nat.toDigitsCore]
  | succ f ih =>
    intro n
    simp only [Nat.toDigitsCore]
    have hd : n % 10 < 10 := Nat.mod_lt _ (by decide)
    have hne := digitChar_ne_slash _ hd
    split
    · simp; exact fun h => hne h.symm
    · rw [toDigitsCore_acc]
      simp only [List.mem_append, List.mem_singleton, not_or]
      exact ⟨ih _, fun h => hne h.symm⟩

theorem toString_data (n : Nat) : (toString n).data = Nat.toDigits 10 n := rfl

theorem toString_nat_injective (i j : Nat) (h : toString i = toString j) : i = j := by
  have h1 : Nat.toDigits 10 i = Nat.toDigits 10 j := by
    rw [← toString_data, ← toString_data, h]
  have hi := decimal_value_toDigitsCore (i + 1) i (by omega)
  have hj := decimal_value_toDigitsCore (j + 1) j (by omega)
  simp only [Nat.toDigits] at h1
  rw [h1] at hi
  omega

theorem split_at_last_slash (l1 l2 d1 d2 : List Char) (h1 : '/' ∉ d1) (h2 : '/' ∉ d2)
    (h : l1 ++ '/' :: d1 = l2 ++ '/' :: d2) : l1 = l2 ∧ d1 = d2 := by
  rcases List.append_eq_append_iff.mp h with ⟨a, ha, hb⟩ | ⟨a, ha, hb⟩
  · cases a with
    | nil => simp at hb ha; exact ⟨ha.symm, hb⟩
    | cons x t =>
      simp at hb
      exfalso; apply h1; rw [hb.2]; simp
  · cases a with
    | nil => simp at hb ha; exact ⟨ha, hb.symm⟩
    | cons x t =>
      simp at hb
      exfalso; apply h2; rw [hb.2]; simp

theorem block_key_data (k : String) (i : Nat) :
    (block_key k i).data = k.data ++ '/' :: Nat.toDigits 10 i := by
  simp [block_key, String.data_append, toString_data]

theorem block_key_inj {k1 k2 : String} {i1 i2 : Nat}
    (h : block_key k1 i1 = block_key k2 i2) : k1 = k2 ∧ i1 = i2 := by
  have hd := congrArg String.data h
  rw [block_key_data, block_key_data] at hd
  have := split_at_last_slash _ _ _ _ (slash_not_mem_toDigitsCore _ _)
    (slash_not_mem_toDigitsCore _ _) hd
  refine ⟨String.ext this.1, ?_⟩
  apply toString_nat_injective
  apply String.ext
  rw [toString_data, toString_data]; exact this.2

/-- C8: the sub-key `base_key + "/" + decimal(index)` determines both the base key and
the block index, whatever characters the base keys contain; in particular two
different block indices of one base key never get the same sub-key.  (A byte string
is a `String` whose characters are its bytes.) -/
theorem block_key_injective (k1 k2 : String) (i1 i2 : Nat) :
    (block_key k1 i1 = block_key k2 i2 → k1 = k2 ∧ i1 = i2) ∧
    (i1 ≠ i2 → block_key k1 i1 ≠ block_key k1 i2) :=
  ⟨fun h => block_key_inj h, fun hne h => hne (block_key_inj h).2⟩

/-! ## The logs of the three loops -/

theorem fail_fast_log_nil : fail_fast_log [] Status.OK 0 :=
  Or.inl ⟨rfl, rfl, by simp⟩

theorem fail_fast_log_fail (e : EngineCall × Status) (n : Nat) (h : e.2.ok = false) :
    fail_fast_log [e] e.2 n :=
  Or.inr ⟨[], e, rfl, by simp, h, rfl⟩

theorem fail_fast_log_cons (e : EngineCall × Status) (log : CallLog) (st : Status)
    (n : Nat) (h : e.2.ok = true) (hl : fail_fast_log log st n) :
    fail_fast_log (e :: log) st (n + 1) := by
  rcases hl with ⟨hlen, hst, hall⟩ | ⟨init, last, hlog, hall, hlast, hst⟩
  · refine Or.inl ⟨by simp [hlen], hst, ?_⟩
    intro x hx
    rcases List.mem_cons.mp hx with rfl | hx
    · exact h
    · exact hall x hx
  · refine Or.inr ⟨e :: init, last, by simp [hlog], ?_, hlast, hst⟩
    intro x hx
    rcases List.mem_cons.mp hx with rfl | hx
    · exact h
    · exact hall x hx

theorem write_blocks_log {σ : Type} (E : KvCache σ) (bs : Nat) (key : String) (size : Nat)
    (b : List Byte) (ttl : Nat) : ∀ (n index off : Nat) (s : σ) (log0 : CallLog),
    ∃ log : CallLog,
      (write_blocks ⟨bs, traced E⟩ key size b ttl n index off (s, log0)).2.2 = log0 ++ log ∧
      log.map Prod.fst = (write_calls bs key size b ttl n index off).take log.length ∧
      fail_fast_log log
        (write_blocks ⟨bs, traced E⟩ key size b ttl n index off (s, log0)).1 n := by
  intro n
  induction n with
  | zero =>
    intro index off s log0
    exact ⟨[], by simp [write_blocks], by simp, fail_fast_log_nil⟩
  | succ n ih =>
    intro index off s log0
    have hstep : write_blocks ⟨bs, traced E⟩ key size b ttl (n + 1) index off (s, log0) =
        if (E.write_cache s (block_key key index)
            ((b.drop off).take (min (sub64 size off) bs)) ttl).1.ok then
          write_blocks ⟨bs, traced E⟩ key size b ttl n (index + 1)
            (wrap64 (off + min (sub64 size off) bs))
            ((E.write_cache s (block_key key index)
              ((b.drop off).take (min (sub64 size off) bs)) ttl).2,
            log0 ++ [(EngineCall.put (block_key key index)
              ((b.drop off).take (min (sub64 size off) bs)) ttl,
              (E.write_cache s (block_key key index)
                ((b.drop off).take (min (sub64 size off) bs)) ttl).1)])
        else ((E.write_cache s (block_key key index)
              ((b.drop off).take (min (sub64 size off) bs)) ttl).1,
            (E.write_cache s (block_key key index)
              ((b.drop off).take (min (sub64 size off) bs)) ttl).2,
            log0 ++ [(EngineCall.put (block_key key index)
              ((b.drop off).take (min (sub64 size off) bs)) ttl,
              (E.write_cache s (block_key key index)
                ((b.drop off).take (min (sub64 size off) bs)) ttl).1)]) := rfl
    rw [hstep]
    generalize E.write_cache s (block_key key index)
      ((b.drop off).take (min (sub64 size off) bs)) ttl = r
    by_cases hok : r.1.ok = true
    · rw [if_pos hok]
      obtain ⟨log, h1, h2, h3⟩ := ih (index + 1) (wrap64 (off + min (sub64 size off) bs)) r.2
        (log0 ++ [(EngineCall.put (block_key key index)
          ((b.drop off).take (min (sub64 size off) bs)) ttl, r.1)])
      refine ⟨(EngineCall.put (block_key key index)
          ((b.drop off).take (min (sub64 size off) bs)) ttl, r.1) :: log, ?_, ?_,
        fail_fast_log_cons _ _ _ _ hok h3⟩
      · rw [h1]; simp
      · simp [write_calls, h2]
    · rw [if_neg hok]
      exact ⟨[(EngineCall.put (block_key key index)
          ((b.drop off).take (min (sub64 size off) bs)) ttl, r.1)], rfl,
        by simp [write_calls], fail_fast_log_fail _ _ (by simpa using hok)⟩

theorem range_shift {α : Type} (f : Nat → α) (n index : Nat) :
    (List.range (n + 1)).map (fun j => f (index + j)) =
      f index :: (List.range n).map (fun j => f (index + 1 + j)) := by
  rw [List.range_succ_eq_map, List.map_cons, List.map_map]
  refine congrArg₂ _ rfl (List.map_congr_left ?_)
  intro j _
  simp only [Function.comp_apply, Nat.succ_eq_add_one]
  rw [Nat.add_assoc, Nat.add_comm 1 j]

theorem read_blocks_log {σ : Type} (E : KvCache σ) (bs : Nat) (key : String) :
    ∀ (n index off rs : Nat) (buf : List Byte) (s : σ) (log0 : CallLog),
    ∃ log : CallLog,
      (read_blocks ⟨bs, traced E⟩ key n index off rs buf (s, log0)).2.2.2 = log0 ++ log ∧
      log.map Prod.fst =
        ((List.range n).map (fun j => EngineCall.get (block_key key (index + j)))).take
          log.length ∧
      fail_fast_log log
        (status_of (read_blocks ⟨bs, traced E⟩ key n index off rs buf (s, log0)).1) n := by
  intro n
  induction n with
  | zero =>
    intro index off rs buf s log0
    exact ⟨[], by simp [read_blocks], by simp, fail_fast_log_nil⟩
  | succ n ih =>
    intro index off rs buf s log0
    have hstep : read_blocks ⟨bs, traced E⟩ key (n + 1) index off rs buf (s, log0) =
        if (E.read_cache s (block_key key index)).1.ok then
          read_blocks ⟨bs, traced E⟩ key n (index + 1) (wrap64 (off + bs))
            (wrap64 (rs + (E.read_cache s (block_key key index)).2.1.length))
            (copy_into buf off (E.read_cache s (block_key key index)).2.1)
            ((E.read_cache s (block_key key index)).2.2,
              log0 ++ [(EngineCall.get (block_key key index),
                (E.read_cache s (block_key key index)).1)])
        else (Except.error (E.read_cache s (block_key key index)).1, buf,
            (E.read_cache s (block_key key index)).2.2,
            log0 ++ [(EngineCall.get (block_key key index),
              (E.read_cache s (block_key key index)).1)]) := rfl
    rw [hstep]
    generalize E.read_cache s (block_key key index) = r
    by_cases hok : r.1.ok = true
    · rw [if_pos hok]
      obtain ⟨log, h1, h2, h3⟩ := ih (index + 1) (wrap64 (off + bs))
        (wrap64 (rs + r.2.1.length)) (copy_into buf off r.2.1) r.2.2
        (log0 ++ [(EngineCall.get (block_key key index), r.1)])
      refine ⟨(EngineCall.get (block_key key index), r.1) :: log, ?_, ?_,
        fail_fast_log_cons _ _ _ _ hok h3⟩
      · rw [h1]; simp
      · rw [range_shift (fun i => EngineCall.get (block_key key i))]
        simp [h2]
    · rw [if_neg hok]
      refine ⟨[(EngineCall.get (block_key key index), r.1)], rfl, ?_,
        fail_fast_log_fail _ _ (by simpa using hok)⟩
      rw [range_shift (fun i => EngineCall.get (block_key key i))]
      simp

theorem remove_blocks_log {σ : Type} (E : KvCache σ) (bs : Nat) (key : String) :
    ∀ (n index : Nat) (s : σ) (log0 : CallLog),
    ∃ log : CallLog,
      (remove_blocks ⟨bs, traced E⟩ key n index (s, log0)).2.2 = log0 ++ log ∧
      log.map Prod.fst =
        ((List.range n).map (fun j => EngineCall.remove (block_key key (index + j)))).take
          log.length ∧
      fail_fast_log log (remove_blocks ⟨bs, traced E⟩ key n index (s, log0)).1 n := by
  intro n
  induction n with
  | zero =>
    intro index s log0
    exact ⟨[], by simp [remove_blocks], by simp, fail_fast_log_nil⟩
  | succ n ih =>
    intro index s log0
    have hstep : remove_blocks ⟨bs, traced E⟩ key (n + 1) index (s, log0) =
        if (E.remove_cache s (block_key key index)).1.ok then
          remove_blocks ⟨bs, traced E⟩ key n (index + 1)
            ((E.remove_cache s (block_key key index)).2,
              log0 ++ [(EngineCall.remove (block_key key index),
                (E.remove_cache s (block_key key index)).1)])
        else ((E.remove_cache s (block_key key index)).1,
            (E.remove_cache s (block_key key index)).2,
            log0 ++ [(EngineCall.remove (block_key key index),
              (E.remove_cache s (block_key key index)).1)]) := rfl
    rw [hstep]
    generalize E.remove_cache s (block_key key index) = r
    by_cases hok : r.1.ok = true
    · rw [if_pos hok]
      obtain ⟨log, h1, h2, h3⟩ := ih (index + 1) r.2
        (log0 ++ [(EngineCall.remove (block_key key index), r.1)])
      refine ⟨(EngineCall.remove (block_key key index), r.1) :: log, ?_, ?_,
        fail_fast_log_cons _ _ _ _ hok h3⟩
      · rw [h1]; simp
      · rw [range_shift (fun i => EngineCall.remove (block_key key i))]
        simp [h2]
    · rw [if_neg hok]
      refine ⟨[(EngineCall.remove (block_key key index), r.1)], rfl, ?_,
        fail_fast_log_fail _ _ (by simpa using hok)⟩
      rw [range_shift (fun i => EngineCall.remove (block_key key i))]
      simp

/-! ## Arithmetic of the block range -/

theorem end_block_no_overflow (u size bs : Nat) (hsz : 0 < size) (hov : u + size < 2 ^ 64) :
    wrap64 (sub64 (wrap64 (u + size)) 1 / bs + 1) = (u + size - 1) / bs + 1 := by
  have h1 : wrap64 (u + size) = u + size := Nat.mod_eq_of_lt hov
  have h2 : sub64 (u + size) 1 = u + size - 1 := by
    unfold sub64
    omega
  have h3 : (u + size - 1) / bs ≤ u + size - 1 := Nat.div_le_self _ _
  rw [h1, h2]
  unfold wrap64
  apply Nat.mod_eq_of_lt
  omega

theorem block_count_aligned (u size bs : Nat) (hbs : 0 < bs) (hsz : 0 < size)
    (hal : u % bs = 0) : (u + size - 1) / bs + 1 - u / bs = (size - 1) / bs + 1 := by
  obtain ⟨m, rfl⟩ := Nat.dvd_of_mod_eq_zero hal
  have e : bs * m + size - 1 = (size - 1) + m * bs := by
    rw [Nat.mul_comm]; omega
  rw [e, Nat.add_mul_div_right _ _ hbs, Nat.mul_div_cancel_left _ hbs]
  generalize (size - 1) / bs = q
  omega

theorem end_block_eq_ceil (a bs : Nat) (hbs : 0 < bs) (ha : 0 < a) :
    (a - 1) / bs + 1 = ceil_div a bs := by
  unfold ceil_div
  symm
  rw [Nat.ceil_eq_iff (Nat.succ_ne_zero _)]
  have hb : (0 : ℚ) < bs := by exact_mod_cast hbs
  have h1 : (a - 1) / bs * bs ≤ a - 1 := Nat.div_mul_le_self _ _
  have h2 : a - 1 < (a - 1) / bs * bs + bs := Nat.lt_div_mul_add hbs
  constructor
  · rw [lt_div_iff₀ hb]
    have : (a - 1) / bs * bs < a := by omega
    have := (Nat.cast_lt (α := ℚ)).mpr this
    push_cast at this ⊢
    simpa using this
  · rw [div_le_iff₀ hb]
    have : a ≤ ((a - 1) / bs + 1) * bs := by
      rw [Nat.add_mul]; omega
    have := (Nat.cast_le (α := ℚ)).mpr this
    push_cast at this ⊢
    simpa using this

theorem last_block_start_lt (size bs : Nat) (hsz : 0 < size) :
    (size - 1) / bs * bs < size := by
  have h1 : (size - 1) / bs * bs ≤ size - 1 := Nat.div_mul_le_self _ _
  omega

theorem size_le_blocks (size bs : Nat) (hbs : 0 < bs) :
    size ≤ ((size - 1) / bs + 1) * bs := by
  have h2 : size - 1 < (size - 1) / bs * bs + bs := Nat.lt_div_mul_add hbs
  rw [Nat.add_mul]; omega

theorem sub64_of_le (a b : Nat) (hba : b ≤ a) (ha : a < 2 ^ 64) : sub64 a b = a - b := by
  unfold sub64
  omega

theorem range_succ_map {α : Type} (g : Nat → α) (n : Nat) :
    (List.range (n + 1)).map g = g 0 :: (List.range n).map (fun j => g (j + 1)) := by
  rw [List.range_succ_eq_map, List.map_cons, List.map_map]
  rfl

theorem write_calls_closed (bs : Nat) (key : String) (size : Nat) (b : List Byte)
    (ttl : Nat) (hsz : size < 2 ^ 64) :
    ∀ (n index off : Nat), (n = 0 ∨ off + (n - 1) * bs < size) →
      write_calls bs key size b ttl n index off =
        (List.range n).map (fun j =>
          EngineCall.put (block_key key (index + j))
            ((b.drop (off + j * bs)).take (min (size - (off + j * bs)) bs)) ttl) := by
  intro n
  induction n with
  | zero => intro index off _; rfl
  | succ n ih =>
    intro index off h
    have hlt : off + n * bs < size := by
      rcases h with h | h
      · omega
      · simpa using h
    have hoff : off ≤ size := by
      have := Nat.zero_le (n * bs)
      omega
    rw [range_succ_map]
    simp only [write_calls, Nat.zero_mul, Nat.add_zero]
    rw [sub64_of_le size off hoff hsz]
    congr 1
    rcases Nat.eq_zero_or_pos n with hn | hn
    · subst hn; rfl
    · have hbsn : bs ≤ n * bs := Nat.le_mul_of_pos_left bs hn
      have hmin : min (size - off) bs = bs := by omega
      have hw : wrap64 (off + bs) = off + bs := by
        unfold wrap64
        apply Nat.mod_eq_of_lt
        omega
      rw [hmin, hw, ih (index + 1) (off + bs)]
      · apply List.map_congr_left
        intro j _
        have e1 : index + 1 + j = index + (j + 1) := by omega
        have e2 : off + bs + j * bs = off + (j + 1) * bs := by
          rw [Nat.succ_mul]; omega
        rw [e1, e2]
      · right
        have : n - 1 + 1 = n := by omega
        have e3 : (n - 1) * bs + bs = n * bs := by
          rw [← Nat.succ_mul, Nat.succ_eq_add_one, this]
        omega

/-! ## Entry points: reduction to the loops -/

theorem of_off_t_nonneg (offset : Int) (h0 : 0 ≤ offset) (hlt : offset < 2 ^ 64) :
    of_off_t offset = offset.toNat := by
  unfold of_off_t
  omega

theorem aligned_nonneg (offset : Int) (bs : Nat) (h0 : 0 ≤ offset) (hlt : offset < 2 ^ 64)
    (hal : offset % (bs : Int) = 0) : of_off_t offset % bs = 0 := by
  rw [of_off_t_nonneg offset h0 hlt]
  have h : ((offset.toNat % bs : Nat) : Int) = 0 := by
    rw [Int.natCast_mod, Int.toNat_of_nonneg h0]; exact hal
  exact_mod_cast h

theorem write_cache_aligned {σ : Type} (c : BlockCache σ) (s : σ) (key : String)
    (offset : Int) (size : Nat) (b : List Byte) (ttl : Nat)
    (hal : of_off_t offset % c._block_size = 0) (hsz : 0 < size) :
    c.write_cache s key offset size (some b) ttl =
      write_blocks c key size b ttl
        (wrap64 (sub64 (wrap64 (of_off_t offset + size)) 1 / c._block_size + 1) -
          of_off_t offset / c._block_size)
        (of_off_t offset / c._block_size) 0 s := by
  have hs : size ≠ 0 := by omega
  simp [BlockCache.write_cache, hal, hs]

theorem read_cache_aligned {σ : Type} (c : BlockCache σ) (s : σ) (key : String)
    (offset : Int) (size : Nat) (b : List Byte)
    (hal : of_off_t offset % c._block_size = 0) (hsz : 0 < size) :
    c.read_cache s key offset size (some b) =
      ((read_blocks c key
        (wrap64 (sub64 (wrap64 (of_off_t offset + size)) 1 / c._block_size + 1) -
          of_off_t offset / c._block_size)
        (of_off_t offset / c._block_size) 0 0 b s).1,
       some (read_blocks c key
        (wrap64 (sub64 (wrap64 (of_off_t offset + size)) 1 / c._block_size + 1) -
          of_off_t offset / c._block_size)
        (of_off_t offset / c._block_size) 0 0 b s).2.1,
       (read_blocks c key
        (wrap64 (sub64 (wrap64 (of_off_t offset + size)) 1 / c._block_size + 1) -
          of_off_t offset / c._block_size)
        (of_off_t offset / c._block_size) 0 0 b s).2.2) := by
  have hs : size ≠ 0 := by omega
  simp [BlockCache.read_cache, hal, hs]

theorem remove_cache_aligned {σ : Type} (c : BlockCache σ) (s : σ) (key : String)
    (offset : Int) (size : Nat)
    (hal : of_off_t offset % c._block_size = 0) (hsz : 0 < size) :
    c.remove_cache s key offset size =
      remove_blocks c key
        (wrap64 (sub64 (wrap64 (of_off_t offset + size)) 1 / c._block_size + 1) -
          of_off_t offset / c._block_size)
        (of_off_t offset / c._block_size) s := by
  have hs : size ≠ 0 := by omega
  simp [BlockCache.remove_cache, hal, hs]

theorem block_count_no_overflow (offset : Int) (size bs : Nat) (hbs : 0 < bs)
    (h0 : 0 ≤ offset) (hal : offset % (bs : Int) = 0) (hsz : 0 < size)
    (hov : offset + size < 2 ^ 64) :
    of_off_t offset % bs = 0 ∧ of_off_t offset = offset.toNat ∧
    wrap64 (sub64 (wrap64 (of_off_t offset + size)) 1 / bs + 1) =
      ceil_div (offset.toNat + size) bs ∧
    ceil_div (offset.toNat + size) bs - offset.toNat / bs = (size - 1) / bs + 1 := by
  have hlt : offset < 2 ^ 64 := by omega
  have hu := of_off_t_nonneg offset h0 hlt
  have ha := aligned_nonneg offset bs h0 hlt hal
  have hov2 : offset.toNat + size < 2 ^ 64 := by omega
  have he := end_block_no_overflow offset.toNat size bs hsz hov2
  have hc := end_block_eq_ceil (offset.toNat + size) bs hbs (by omega)
  refine ⟨ha, hu, ?_, ?_⟩
  · rw [hu, he, hc]
  · rw [← hc]
    rw [hu] at ha
    exact block_count_aligned offset.toNat size bs hbs hsz ha

/-! ## Reading a fail-fast log -/

theorem fail_fast_all_ok (log : CallLog) (st : Status) (n : Nat)
    (h : fail_fast_log log st n) (hall : ∀ e ∈ log, e.2.ok = true) :
    log.length = n ∧ st = Status.OK := by
  rcases h with ⟨hlen, hst, _⟩ | ⟨init, last, hlog, _, hlast, _⟩
  · exact ⟨hlen, hst⟩
  · have := hall last (by rw [hlog]; simp)
    rw [hlast] at this
    cases this

theorem fail_fast_failed (log : CallLog) (st : Status) (n : Nat)
    (h : fail_fast_log log st n) (x : EngineCall × Status) (hx : x ∈ log)
    (hfail : x.2.ok = false) :
    ∃ init, log = init ++ [x] ∧ (∀ e ∈ init, e.2.ok = true) ∧ st = x.2 := by
  rcases h with ⟨_, _, hall⟩ | ⟨init, last, hlog, hall, _, hst⟩
  · have := hall x hx
    rw [hfail] at this
    cases this
  · have hxl : x = last := by
      rw [hlog] at hx
      rcases List.mem_append.mp hx with hi | hl
      · have := hall x hi
        rw [hfail] at this
        cases this
      · simpa using hl
    subst hxl
    exact ⟨init, hlog, hall, hst⟩

theorem targets_of_take (key : String) (start n : Nat) (kind : CallKind)
    (calls : List EngineCall) (log : CallLog) (hmn : log.length ≤ n)
    (h : log.map Prod.fst = calls.take log.length)
    (ht : calls.map (fun c => (c.kind, c.key)) =
      (List.range n).map (fun j => (kind, block_key key (start + j)))) :
    call_targets log =
      (List.range log.length).map (fun j => (kind, block_key key (start + j))) := by
  have h2 : call_targets log = (log.map Prod.fst).map (fun c => (c.kind, c.key)) := by
    simp [call_targets, List.map_map, Function.comp_def]
  rw [h2, h, List.map_take, ht, ← List.map_take, List.take_range, Nat.min_eq_left hmn]

theorem write_calls_targets (bs : Nat) (key : String) (size : Nat) (b : List Byte)
    (ttl : Nat) : ∀ (n index off : Nat),
    (write_calls bs key size b ttl n index off).map (fun c => (c.kind, c.key)) =
      (List.range n).map (fun j => (CallKind.put, block_key key (index + j))) := by
  intro n
  induction n with
  | zero => intro index off; rfl
  | succ n ih =>
    intro index off
    rw [range_shift (fun i => (CallKind.put, block_key key i))]
    simp only [write_calls, List.map_cons, ih]
    rfl

theorem get_calls_targets (key : String) (n index : Nat) :
    ((List.range n).map (fun j => EngineCall.get (block_key key (index + j)))).map
        (fun c => (c.kind, c.key)) =
      (List.range n).map (fun j => (CallKind.get, block_key key (index + j))) := by
  simp [List.map_map, Function.comp_def, EngineCall.kind, EngineCall.key]

theorem remove_calls_targets (key : String) (n index : Nat) :
    ((List.range n).map (fun j => EngineCall.remove (block_key key (index + j)))).map
        (fun c => (c.kind, c.key)) =
      (List.range n).map (fun j => (CallKind.remove, block_key key (index + j))) := by
  simp [List.map_map, Function.comp_def, EngineCall.kind, EngineCall.key]

theorem length_le_of_map_take {α β : Type} (f : α → β) (l : List α) (calls : List β)
    (n : Nat) (hn : calls.length = n) (h : l.map f = calls.take l.length) :
    l.length ≤ n := by
  have := congrArg List.length h
  simp only [List.length_map, List.length_take] at this
  omega

theorem write_calls_length (bs : Nat) (key : String) (size : Nat) (b : List Byte)
    (ttl : Nat) : ∀ (n index off : Nat),
    (write_calls bs key size b ttl n index off).length = n := by
  intro n
  induction n with
  | zero => intro index off; rfl
  | succ n ih => intro index off; simp [write_calls, ih]

/-! ## The runs of the traced block cache -/

theorem write_run_log {σ : Type} (E : KvCache σ) (s : σ) (bs : Nat) (key : String)
    (offset : Int) (size : Nat) (b : List Byte) (ttl : Nat)
    (hal : of_off_t offset % bs = 0) (hsz : 0 < size) :
    ∃ n : Nat,
      n = wrap64 (sub64 (wrap64 (of_off_t offset + size)) 1 / bs + 1) - of_off_t offset / bs ∧
      (((traced_cache E bs).write_cache (s, []) key offset size (some b) ttl).2.2).map
          Prod.fst =
        (write_calls bs key size b ttl n (of_off_t offset / bs) 0).take
          ((traced_cache E bs).write_cache (s, []) key offset size (some b) ttl).2.2.length ∧
      fail_fast_log ((traced_cache E bs).write_cache (s, []) key offset size (some b) ttl).2.2
        ((traced_cache E bs).write_cache (s, []) key offset size (some b) ttl).1 n := by
  refine ⟨_, rfl, ?_⟩
  rw [write_cache_aligned (traced_cache E bs) (s, []) key offset size b ttl hal hsz]
  obtain ⟨log, h1, h2, h3⟩ := write_blocks_log E bs key size b ttl
    (wrap64 (sub64 (wrap64 (of_off_t offset + size)) 1 / bs + 1) - of_off_t offset / bs)
    (of_off_t offset / bs) 0 s []
  simp only [traced_cache] at *
  rw [h1]
  simp only [List.nil_append]
  exact ⟨h2, h3⟩

theorem read_run_log {σ : Type} (E : KvCache σ) (s : σ) (bs : Nat) (key : String)
    (offset : Int) (size : Nat) (b : List Byte)
    (hal : of_off_t offset % bs = 0) (hsz : 0 < size) :
    ∃ n : Nat,
      n = wrap64 (sub64 (wrap64 (of_off_t offset + size)) 1 / bs + 1) - of_off_t offset / bs ∧
      (((traced_cache E bs).read_cache (s, []) key offset size (some b)).2.2.2).map
          Prod.fst =
        ((List.range n).map
          (fun j => EngineCall.get (block_key key (of_off_t offset / bs + j)))).take
          ((traced_cache E bs).read_cache (s, []) key offset size (some b)).2.2.2.length ∧
      fail_fast_log ((traced_cache E bs).read_cache (s, []) key offset size (some b)).2.2.2
        (status_of ((traced_cache E bs).read_cache (s, []) key offset size (some b)).1) n := by
  refine ⟨_, rfl, ?_⟩
  rw [read_cache_aligned (traced_cache E bs) (s, []) key offset size b hal hsz]
  obtain ⟨log, h1, h2, h3⟩ := read_blocks_log E bs key
    (wrap64 (sub64 (wrap64 (of_off_t offset + size)) 1 / bs + 1) - of_off_t offset / bs)
    (of_off_t offset / bs) 0 0 b s []
  simp only [traced_cache] at *
  rw [h1]
  simp only [List.nil_append]
  exact ⟨h2, h3⟩

theorem remove_run_log {σ : Type} (E : KvCache σ) (s : σ) (bs : Nat) (key : String)
    (offset : Int) (size : Nat)
    (hal : of_off_t offset % bs = 0) (hsz : 0 < size) :
    ∃ n : Nat,
      n = wrap64 (sub64 (wrap64 (of_off_t offset + size)) 1 / bs + 1) - of_off_t offset / bs ∧
      (((traced_cache E bs).remove_cache (s, []) key offset size).2.2).map Prod.fst =
        ((List.range n).map
          (fun j => EngineCall.remove (block_key key (of_off_t offset / bs + j)))).take
          ((traced_cache E bs).remove_cache (s, []) key offset size).2.2.length ∧
      fail_fast_log ((traced_cache E bs).remove_cache (s, []) key offset size).2.2
        ((traced_cache E bs).remove_cache (s, []) key offset size).1 n := by
  refine ⟨_, rfl, ?_⟩
  rw [remove_cache_aligned (traced_cache E bs) (s, []) key offset size hal hsz]
  obtain ⟨log, h1, h2, h3⟩ := remove_blocks_log E bs key
    (wrap64 (sub64 (wrap64 (of_off_t offset + size)) 1 / bs + 1) - of_off_t offset / bs)
    (of_off_t offset / bs) s []
  simp only [traced_cache] at *
  rw [h1]
  simp only [List.nil_append]
  exact ⟨h2, h3⟩

/-- C3: for a block size `bs > 0`, an aligned offset `>= 0` and a size `> 0` with
`offset + size` below `2 ^ 64`, the end block the code computes,
`(offset + size - 1) / bs + 1` in 64-bit arithmetic, is the ceiling of
`(offset + size) / bs`; and a `write_cache`, `read_cache` or `remove_cache` (on a
non-null buffer) all of whose engine calls succeed makes exactly
`k = end_block - start_block` engine calls, of its own kind, addressed in increasing
order to the sub-keys `block_key key (start_block + i)`, `i = 0 .. k - 1`, where
`start_block = offset / bs`. -/
theorem block_decomposition {σ : Type} (E : KvCache σ) (s : σ) (bs : Nat) (key : String)
    (offset : Int) (size : Nat) (b : List Byte) (ttl : Nat)
    (hbs : 0 < bs) (h0 : 0 ≤ offset) (hal : offset % (bs : Int) = 0) (hsz : 0 < size)
    (hov : offset + size < 2 ^ 64) :
    wrap64 (sub64 (wrap64 (of_off_t offset + size)) 1 / bs + 1) =
      ceil_div (offset.toNat + size) bs ∧
    ((∀ e ∈ ((traced_cache E bs).write_cache (s, []) key offset size (some b) ttl).2.2,
        e.2.ok = true) →
      call_targets ((traced_cache E bs).write_cache (s, []) key offset size (some b) ttl).2.2 =
        (List.range (ceil_div (offset.toNat + size) bs - offset.toNat / bs)).map
          (fun i => (CallKind.put, block_key key (offset.toNat / bs + i)))) ∧
    ((∀ e ∈ ((traced_cache E bs).read_cache (s, []) key offset size (some b)).2.2.2,
        e.2.ok = true) →
      call_targets ((traced_cache E bs).read_cache (s, []) key offset size (some b)).2.2.2 =
        (List.range (ceil_div (offset.toNat + size) bs - offset.toNat / bs)).map
          (fun i => (CallKind.get, block_key key (offset.toNat / bs + i)))) ∧
    ((∀ e ∈ ((traced_cache E bs).remove_cache (s, []) key offset size).2.2,
        e.2.ok = true) →
      call_targets ((traced_cache E bs).remove_cache (s, []) key offset size).2.2 =
        (List.range (ceil_div (offset.toNat + size) bs - offset.toNat / bs)).map
          (fun i => (CallKind.remove, block_key key (offset.toNat / bs + i)))) := by
  obtain ⟨hal2, hu, hend, _⟩ := block_count_no_overflow offset size bs hbs h0 hal hsz hov
  refine ⟨hend, ?_, ?_, ?_⟩
  · intro hall
    obtain ⟨n, hn, h2, h3⟩ := write_run_log E s bs key offset size b ttl hal2 hsz
    rw [hend, hu] at hn
    rw [hu] at h2
    have hlen := (fail_fast_all_ok _ _ _ h3 hall).1
    have ht := targets_of_take key (offset.toNat / bs) n CallKind.put _ _ (le_of_eq hlen) h2
      (write_calls_targets bs key size b ttl n _ 0)
    rw [ht, hlen, hn]
  · intro hall
    obtain ⟨n, hn, h2, h3⟩ := read_run_log E s bs key offset size b hal2 hsz
    rw [hend, hu] at hn
    rw [hu] at h2
    have hlen := (fail_fast_all_ok _ _ _ h3 hall).1
    have ht := targets_of_take key (offset.toNat / bs) n CallKind.get _ _ (le_of_eq hlen) h2
      (get_calls_targets key n _)
    rw [ht, hlen, hn]
  · intro hall
    obtain ⟨n, hn, h2, h3⟩ := remove_run_log E s bs key offset size hal2 hsz
    rw [hend, hu] at hn
    rw [hu] at h2
    have hlen := (fail_fast_all_ok _ _ _ h3 hall).1
    have ht := targets_of_take key (offset.toNat / bs) n CallKind.remove _ _ (le_of_eq hlen) h2
      (remove_calls_targets key n _)
    rw [ht, hlen, hn]

/-- Witness of C3: block size 4, offset 4, size 8 over an engine that serves every
call: the end block is the ceiling 3, the start block 1, and each operation makes its
two calls, on `k/1` and then `k/2`. -/
theorem block_decomposition_witness :
    wrap64 (sub64 (wrap64 (of_off_t 4 + 8)) 1 / 4 + 1) = ceil_div ((4 : Int).toNat + 8) 4 ∧
    ceil_div ((4 : Int).toNat + 8) 4 = 3 ∧
    call_targets ((traced_cache failing_engine 4).write_cache (9, []) "k" 4 8
        (some [1, 2, 3, 4, 5, 6, 7, 8]) 0).2.2 =
      [(CallKind.put, "k/1"), (CallKind.put, "k/2")] ∧
    call_targets ((traced_cache failing_engine 4).read_cache (9, []) "k" 4 8
        (some [1, 2, 3, 4, 5, 6, 7, 8])).2.2.2 =
      [(CallKind.get, "k/1"), (CallKind.get, "k/2")] ∧
    call_targets ((traced_cache failing_engine 4).remove_cache (9, []) "k" 4 8).2.2 =
      [(CallKind.remove, "k/1"), (CallKind.remove, "k/2")] := by
  have h := block_decomposition failing_engine 9 4 "k" 4 8 [1, 2, 3, 4, 5, 6, 7, 8] 0
    (by decide) (by decide) (by decide) (by decide) (by decide)
  have hc : ceil_div ((4 : Int).toNat + 8) 4 = 3 := h.1.symm.trans (by decide)
  refine ⟨h.1, hc, ?_, ?_, ?_⟩
  · exact (h.2.1 (by decide)).trans (by rw [hc]; decide)
  · exact (h.2.2.1 (by decide)).trans (by rw [hc]; decide)
  · exact (h.2.2.2 (by decide)).trans (by rw [hc]; decide)

/-! ## The payloads of a write -/

theorem chunks_flatten (b : List Byte) (size bs : Nat) : ∀ m : Nat,
    ((List.range m).map (fun j => (b.drop (j * bs)).take (min (size - j * bs) bs))).flatten =
      b.take (min (m * bs) size) := by
  intro m
  induction m with
  | zero => simp
  | succ m ih =>
    rw [List.range_succ, List.map_append, List.flatten_append, ih]
    simp only [List.map_cons, List.map_nil, List.flatten_cons, List.flatten_nil, List.append_nil]
    rw [Nat.succ_mul]
    rcases Nat.le_total (m * bs) size with h | h
    · rw [Nat.min_eq_left h]
      have e : min (m * bs + bs) size = m * bs + min (size - m * bs) bs := by omega
      rw [e, List.take_add]
    · have e1 : min (size - m * bs) bs = 0 := by omega
      have e2 : min (m * bs + bs) size = size := by omega
      rw [Nat.min_eq_right h, e1, e2]
      simp

theorem payload_map (g : Nat → List Byte) (f : Nat → String) (ttl n : Nat) :
    ((List.range n).map (fun j => EngineCall.put (f j) (g j) ttl)).map EngineCall.payload =
      (List.range n).map g := by
  simp [List.map_map, Function.comp_def, EngineCall.payload]

/-- C4: for a block size `bs > 0`, an aligned offset `>= 0` and a non-null buffer
holding at least `size > 0` bytes, a `write_cache` all of whose puts succeed makes
`(size - 1) / bs + 1` puts; the `j`-th one (from 0) is addressed to block
`offset / bs + j`, carries the ttl of the call and the
`min (size - j * bs) bs` bytes `buffer[j * bs .. j * bs + min (size - j * bs) bs)`.
Hence every put but the last carries exactly `bs` bytes, no put reads the buffer at
or beyond index `size`, and the payloads in order concatenate to
`buffer[0 .. size)`.  (`offset` is an `off_t` and the buffer an object in memory, so
both are below `2 ^ 63`.) -/
theorem write_chunking {σ : Type} (E : KvCache σ) (s : σ) (bs : Nat) (key : String)
    (offset : Int) (size : Nat) (b : List Byte) (ttl : Nat)
    (hbs : 0 < bs) (h0 : 0 ≤ offset) (hoff : offset < 2 ^ 63)
    (hal : offset % (bs : Int) = 0) (hsz : 0 < size) (hlen : size ≤ b.length)
    (hobj : b.length < 2 ^ 63)
    (hputs : ∀ e ∈ ((traced_cache E bs).write_cache (s, []) key offset size (some b) ttl).2.2,
      e.2.ok = true) :
    (((traced_cache E bs).write_cache (s, []) key offset size (some b) ttl).2.2).map Prod.fst =
      (List.range ((size - 1) / bs + 1)).map (fun j =>
        EngineCall.put (block_key key (offset.toNat / bs + j))
          ((b.drop (j * bs)).take (min (size - j * bs) bs)) ttl) ∧
    (∀ j, j < (size - 1) / bs + 1 →
      ((b.drop (j * bs)).take (min (size - j * bs) bs)).length = min (size - j * bs) bs ∧
      0 < min (size - j * bs) bs ∧ j * bs + min (size - j * bs) bs ≤ size) ∧
    (∀ j, j + 1 < (size - 1) / bs + 1 → min (size - j * bs) bs = bs) ∧
    ((((traced_cache E bs).write_cache (s, []) key offset size (some b) ttl).2.2).map
      (fun e => e.1.payload)).flatten = b.take size := by
  have hov : offset + size < 2 ^ 64 := by omega
  obtain ⟨hal2, hu, hend, hk⟩ := block_count_no_overflow offset size bs hbs h0 hal hsz hov
  obtain ⟨n, hn, h2, h3⟩ := write_run_log E s bs key offset size b ttl hal2 hsz
  rw [hend, hu, hk] at hn
  rw [hu] at h2
  have hlast := last_block_start_lt size bs hsz
  have hcover := size_le_blocks size bs hbs
  have hlen2 := (fail_fast_all_ok _ _ _ h3 hputs).1
  have hclosed := write_calls_closed bs key size b ttl (by omega) n (offset.toNat / bs) 0
    (Or.inr (by rw [hn]; simpa using hlast))
  rw [hlen2, List.take_of_length_le (le_of_eq (write_calls_length bs key size b ttl n _ 0)),
    hclosed] at h2
  simp only [Nat.zero_add] at h2
  subst hn
  have hjs : ∀ j, j < (size - 1) / bs + 1 → j * bs < size := by
    intro j hj
    have : j * bs ≤ (size - 1) / bs * bs := Nat.mul_le_mul_right bs (by omega)
    omega
  refine ⟨h2, ?_, ?_, ?_⟩
  · intro j hj
    have := hjs j hj
    refine ⟨?_, by omega, by omega⟩
    rw [List.length_take, List.length_drop]
    omega
  · intro j hj
    have : (j + 1) * bs ≤ (size - 1) / bs * bs := Nat.mul_le_mul_right bs (by omega)
    rw [Nat.succ_mul] at this
    omega
  · have hm : (((traced_cache E bs).write_cache (s, []) key offset size (some b) ttl).2.2).map
        (fun e => e.1.payload) =
        ((((traced_cache E bs).write_cache (s, []) key offset size (some b) ttl).2.2).map
          Prod.fst).map EngineCall.payload := by
      simp [List.map_map, Function.comp_def]
    rw [hm, h2, payload_map, chunks_flatten, Nat.min_eq_right hcover]

theorem write_blocks_statuses {σ : Type} (E : KvCache σ)
    (hE : ∀ s k v t, (E.write_cache s k v t).1.ok = true) (bs : Nat) (key : String)
    (size : Nat) (b : List Byte) (ttl : Nat) : ∀ (n index off : Nat) (s : σ) (log0 : CallLog),
    (∀ e ∈ log0, e.2.ok = true) →
    ∀ e ∈ (write_blocks ⟨bs, traced E⟩ key size b ttl n index off (s, log0)).2.2,
      e.2.ok = true := by
  intro n
  induction n with
  | zero => intro index off s log0 h0; simpa [write_blocks] using h0
  | succ n ih =>
    intro index off s log0 h0
    have hstep : write_blocks ⟨bs, traced E⟩ key size b ttl (n + 1) index off (s, log0) =
        write_blocks ⟨bs, traced E⟩ key size b ttl n (index + 1)
          (wrap64 (off + min (sub64 size off) bs))
          ((E.write_cache s (block_key key index)
            ((b.drop off).take (min (sub64 size off) bs)) ttl).2,
          log0 ++ [(EngineCall.put (block_key key index)
            ((b.drop off).take (min (sub64 size off) bs)) ttl,
            (E.write_cache s (block_key key index)
              ((b.drop off).take (min (sub64 size off) bs)) ttl).1)]) := by
      simp [write_blocks, traced, hE]
    rw [hstep]
    apply ih
    intro e he
    rcases List.mem_append.mp he with h | h
    · exact h0 e h
    · rw [List.mem_singleton.mp h]; exact hE _ _ _ _

theorem puts_succeed_of_engine {σ : Type} (E : KvCache σ)
    (hE : ∀ s k v t, (E.write_cache s k v t).1.ok = true) (s : σ) (bs : Nat)
    (key : String) (offset : Int) (size : Nat) (buffer : Option (List Byte)) (ttl : Nat) :
    ∀ e ∈ ((traced_cache E bs).write_cache (s, []) key offset size buffer ttl).2.2,
      e.2.ok = true := by
  unfold BlockCache.write_cache
  split
  · simp
  · split
    · simp
    · split
      · simp
      · exact write_blocks_statuses E hE bs key size _ ttl _ _ _ s [] (by simp)

/-- Witness of C4, the scenario of the spec: block size 4096, `write(k, 4096, 8192, B)`
makes exactly two puts, on `k/1` and `k/2`, each carrying 4096 bytes. -/
theorem write_chunking_witness :
    (((traced_cache map_engine 4096).write_cache ([], []) "k" 4096 8192
        (some (List.replicate 8192 0)) 0).2.2).map Prod.fst =
      [EngineCall.put "k/1" ((List.replicate 8192 (0 : Byte)).take 4096) 0,
       EngineCall.put "k/2" (((List.replicate 8192 (0 : Byte)).drop 4096).take 4096) 0] ∧
    ((List.replicate 8192 (0 : Byte)).take 4096).length = 4096 ∧
    (((List.replicate 8192 (0 : Byte)).drop 4096).take 4096).length = 4096 := by
  have h := write_chunking map_engine [] 4096 "k" 4096 8192 (List.replicate 8192 0) 0
    (by decide) (by decide) (by decide) (by decide) (by decide)
    (by rw [List.length_replicate]) (by rw [List.length_replicate]; decide)
    (puts_succeed_of_engine map_engine (fun _ _ _ _ => rfl) _ _ _ _ _ _ _)
  have e : List.range ((8192 - 1) / 4096 + 1) = [0, 1] := by decide
  have k1 : block_key "k" ((4096 : Int).toNat / 4096 + 0) = "k/1" := by decide
  have k2 : block_key "k" ((4096 : Int).toNat / 4096 + 1) = "k/2" := by decide
  have h1 := h.1
  refine ⟨?_, ?_, ?_⟩
  · generalize List.replicate 8192 (0 : Byte) = B at h1 ⊢
    rw [h1, e]
    simp only [List.map_cons, List.map_nil, k1, k2]
    simp
  · rw [List.length_take, List.length_replicate]; decide
  · rw [List.length_take, List.length_drop, List.length_replicate]; decide

/-! ## Fail-fast -/

theorem fail_fast_targets (key : String) (start n : Nat) (kind : CallKind) (log : CallLog)
    (st : Status) (x : EngineCall × Status) (i : Nat) (hff : fail_fast_log log st n)
    (ht : call_targets log =
      (List.range log.length).map (fun j => (kind, block_key key (start + j))))
    (hx : x ∈ log) (hfail : x.2.ok = false) (hkey : x.1.key = block_key key i) :
    st = x.2 ∧ start ≤ i ∧
    call_targets log =
      (List.range (i + 1 - start)).map (fun j => (kind, block_key key (start + j))) ∧
    (∀ e ∈ log.dropLast, e.2.ok = true) ∧ log.getLast? = some x := by
  obtain ⟨init, hlog, hinit, hst⟩ := fail_fast_failed log st n hff x hx hfail
  subst hlog
  have hi : i = start + init.length := by
    have h1 := ht
    simp only [call_targets, List.map_append, List.map_cons, List.map_nil,
      List.length_append, List.length_singleton, List.range_succ] at h1
    have h2 := (List.append_inj' h1 rfl).2
    simp only [List.cons.injEq, Prod.mk.injEq, and_true] at h2
    rw [hkey] at h2
    exact (block_key_inj h2.2).2
  refine ⟨hst, by omega, ?_, ?_, ?_⟩
  · rw [ht]
    congr 2
    simp only [List.length_append, List.length_singleton]
    omega
  · simpa using hinit
  · simp

theorem status_of_error (r : Except Status Nat) (e : Status) (h : status_of r = e)
    (hfail : e.ok = false) : r = Except.error e := by
  cases r with
  | error st => simp only [status_of] at h; rw [h]
  | ok v =>
    simp only [status_of] at h
    rw [← h] at hfail
    cases hfail

/-- C5: in a `write_cache` call with an aligned offset `>= 0`, a non-null buffer and
`size > 0`, if the put on block `i` fails with status `e`, then `write_cache` returns
exactly `e`, the engine calls made are exactly the puts on blocks
`start_block, ..., i` in this order (one each and nothing else: no retry, no rollback,
no block after `i`), every call before the last succeeded and the last call is the
failed put.  The same holds for `read_cache` with gets (it returns the error `e`) and
for `remove_cache` with removes. -/
theorem fail_fast {σ : Type} (E : KvCache σ) (s : σ) (bs : Nat) (key : String)
    (offset : Int) (size : Nat) (b : List Byte) (ttl : Nat) (i : Nat) (e : Status)
    (hbs : 0 < bs) (h0 : 0 ≤ offset) (hoff : offset < 2 ^ 63)
    (hal : offset % (bs : Int) = 0) (hsz : 0 < size) (hfail : e.ok = false) :
    (∀ v, (EngineCall.put (block_key key i) v ttl, e) ∈
        ((traced_cache E bs).write_cache (s, []) key offset size (some b) ttl).2.2 →
      ((traced_cache E bs).write_cache (s, []) key offset size (some b) ttl).1 = e ∧
      offset.toNat / bs ≤ i ∧
      call_targets ((traced_cache E bs).write_cache (s, []) key offset size (some b) ttl).2.2 =
        (List.range (i + 1 - offset.toNat / bs)).map
          (fun j => (CallKind.put, block_key key (offset.toNat / bs + j))) ∧
      (∀ x ∈ ((traced_cache E bs).write_cache (s, []) key offset size (some b) ttl).2.2.dropLast,
        x.2.ok = true) ∧
      ((traced_cache E bs).write_cache (s, []) key offset size (some b) ttl).2.2.getLast? =
        some (EngineCall.put (block_key key i) v ttl, e)) ∧
    ((EngineCall.get (block_key key i), e) ∈
        ((traced_cache E bs).read_cache (s, []) key offset size (some b)).2.2.2 →
      ((traced_cache E bs).read_cache (s, []) key offset size (some b)).1 = Except.error e ∧
      offset.toNat / bs ≤ i ∧
      call_targets ((traced_cache E bs).read_cache (s, []) key offset size (some b)).2.2.2 =
        (List.range (i + 1 - offset.toNat / bs)).map
          (fun j => (CallKind.get, block_key key (offset.toNat / bs + j))) ∧
      (∀ x ∈ ((traced_cache E bs).read_cache (s, []) key offset size (some b)).2.2.2.dropLast,
        x.2.ok = true) ∧
      ((traced_cache E bs).read_cache (s, []) key offset size (some b)).2.2.2.getLast? =
        some (EngineCall.get (block_key key i), e)) ∧
    ((EngineCall.remove (block_key key i), e) ∈
        ((traced_cache E bs).remove_cache (s, []) key offset size).2.2 →
      ((traced_cache E bs).remove_cache (s, []) key offset size).1 = e ∧
      offset.toNat / bs ≤ i ∧
      call_targets ((traced_cache E bs).remove_cache (s, []) key offset size).2.2 =
        (List.range (i + 1 - offset.toNat / bs)).map
          (fun j => (CallKind.remove, block_key key (offset.toNat / bs + j))) ∧
      (∀ x ∈ ((traced_cache E bs).remove_cache (s, []) key offset size).2.2.dropLast,
        x.2.ok = true) ∧
      ((traced_cache E bs).remove_cache (s, []) key offset size).2.2.getLast? =
        some (EngineCall.remove (block_key key i), e)) := by
  have hlt : offset < 2 ^ 64 := by omega
  have hu := of_off_t_nonneg offset h0 hlt
  have hal2 := aligned_nonneg offset bs h0 hlt hal
  refine ⟨?_, ?_, ?_⟩
  · intro v hmem
    obtain ⟨n, _, h2, h3⟩ := write_run_log E s bs key offset size b ttl hal2 hsz
    rw [hu] at h2
    have hle := length_le_of_map_take _ _ _ n (write_calls_length bs key size b ttl n _ 0) h2
    have ht := targets_of_take key (offset.toNat / bs) n CallKind.put _ _ hle h2
      (write_calls_targets bs key size b ttl n _ 0)
    exact fail_fast_targets key _ n CallKind.put _ _ _ i h3 ht hmem hfail rfl
  · intro hmem
    obtain ⟨n, _, h2, h3⟩ := read_run_log E s bs key offset size b hal2 hsz
    rw [hu] at h2
    have hle := length_le_of_map_take _ _ _ n (by simp) h2
    have ht := targets_of_take key (offset.toNat / bs) n CallKind.get _ _ hle h2
      (get_calls_targets key n _)
    have h := fail_fast_targets key _ n CallKind.get _ _ _ i h3 ht hmem hfail rfl
    exact ⟨status_of_error _ _ h.1 hfail, h.2⟩
  · intro hmem
    obtain ⟨n, _, h2, h3⟩ := remove_run_log E s bs key offset size hal2 hsz
    rw [hu] at h2
    have hle := length_le_of_map_take _ _ _ n (by simp) h2
    have ht := targets_of_take key (offset.toNat / bs) n CallKind.remove _ _ hle h2
      (remove_calls_targets key n _)
    exact fail_fast_targets key _ n CallKind.remove _ _ _ i h3 ht hmem hfail rfl

/-- Witness of C5: block size 4, a write of blocks 1, 2, 3 on an engine that serves one
call and then fails: the put on block 2 fails, the write returns its error, and
the calls made are the puts on `k/1` and `k/2`. -/
theorem fail_fast_witness :
    (EngineCall.put (block_key "k" 2) [5, 6, 7, 8] 0,
        Status.mk TStatusCode.INTERNAL_ERROR "engine failure") ∈
      ((traced_cache failing_engine 4).write_cache (1, []) "k" 4 12
        (some [1, 2, 3, 4, 5, 6, 7, 8, 9, 10, 11, 12]) 0).2.2 ∧
    ((traced_cache failing_engine 4).write_cache (1, []) "k" 4 12
        (some [1, 2, 3, 4, 5, 6, 7, 8, 9, 10, 11, 12]) 0).1 =
      Status.mk TStatusCode.INTERNAL_ERROR "engine failure" ∧
    call_targets ((traced_cache failing_engine 4).write_cache (1, []) "k" 4 12
        (some [1, 2, 3, 4, 5, 6, 7, 8, 9, 10, 11, 12]) 0).2.2 =
      (List.range (2 + 1 - (4 : Int).toNat / 4)).map
        (fun j => (CallKind.put, block_key "k" ((4 : Int).toNat / 4 + j))) ∧
    call_targets ((traced_cache failing_engine 4).write_cache (1, []) "k" 4 12
        (some [1, 2, 3, 4, 5, 6, 7, 8, 9, 10, 11, 12]) 0).2.2 =
      [(CallKind.put, "k/1"), (CallKind.put, "k/2")] := by
  have h := (fail_fast failing_engine 1 4 "k" 4 12 [1, 2, 3, 4, 5, 6, 7, 8, 9, 10, 11, 12] 0 2
    (Status.mk TStatusCode.INTERNAL_ERROR "engine failure")
    (by decide) (by decide) (by decide) (by decide) (by decide) (by decide)).1
    [5, 6, 7, 8] (by decide)
  exact ⟨by decide, h.1, h.2.2.1, by decide⟩

/-! ## Validation of the arguments -/

/-- An offset whose unsigned 64-bit value is not a multiple of the block size is
rejected by all four operations with InvalidArgument, before any engine call: the
engine state, the log, the caller's buffer and the out-parameter are unchanged.  This
covers every offset `>= 0` that is not a multiple of the block size. -/
theorem misaligned_unsigned_rejected {σ : Type} (E : KvCache σ) (s : σ) (bs : Nat)
    (key : String) (offset : Int) (size : Nat) (buffer : Option (List Byte))
    (buf : Option Addr) (ttl : Nat) (h : of_off_t offset % bs ≠ 0) :
    (traced_cache E bs).write_cache (s, []) key offset size buffer ttl =
      (Status.InvalidArgument ("offset must be aligned by block size " ++ toString bs),
        (s, [])) ∧
    (traced_cache E bs).read_cache (s, []) key offset size buffer =
      (Except.error (Status.InvalidArgument
        ("offset and size must be aligned by block size " ++ toString bs)), buffer, (s, [])) ∧
    (traced_cache E bs).read_cache_zero_copy (s, []) key offset size buf =
      (Status.InvalidArgument
        ("offset and size must be aligned by block size " ++ toString bs), buf, (s, [])) ∧
    (traced_cache E bs).remove_cache (s, []) key offset size =
      (Status.InvalidArgument
        ("offset and size must be aligned by block size " ++ toString bs), (s, [])) := by
  simp [BlockCache.write_cache, BlockCache.read_cache, BlockCache.read_cache_zero_copy,
    BlockCache.remove_cache, traced_cache, h]

/-- C2, at a failing input: with block size 3 the offset -1 is not a multiple of the
block size, yet its unsigned value `2 ^ 64 - 1` is, so no operation returns
InvalidArgument: `write_cache` puts block 6148914691236517205 and returns OK, and
`read_cache`, `read_cache_zero_copy` and `remove_cache` call the engine as well. -/
theorem misaligned_negative_offset_accepted :
    (-1 : Int) % ((3 : Nat) : Int) ≠ 0 ∧
    (traced_cache map_engine 3).write_cache ([], []) "k" (-1) 1 (some [7]) 0 =
      (Status.OK, ([("k/6148914691236517205", [7])],
        [(EngineCall.put "k/6148914691236517205" [7] 0, Status.OK)])) ∧
    (traced_cache map_engine 3).read_cache ([], []) "k" (-1) 1 (some [0]) =
      (Except.error (Status.NotFound "not found"), some [0],
        ([], [(EngineCall.get "k/6148914691236517205", Status.NotFound "not found")])) ∧
    (traced_cache map_engine 3).read_cache_zero_copy ([], []) "k" (-1) 1 (some 0) =
      (Status.mk TStatusCode.INTERNAL_ERROR "zero copy is not supported", some 0,
        ([], [(EngineCall.get_zero_copy "k/6148914691236517205",
          Status.mk TStatusCode.INTERNAL_ERROR "zero copy is not supported")])) ∧
    (traced_cache map_engine 3).remove_cache ([], []) "k" (-1) 1 =
      (Status.OK, ([], [(EngineCall.remove "k/6148914691236517205", Status.OK)])) :=
  ⟨by decide, by decide, by decide, by decide, by decide⟩

/-- A call with `size == 0` whose offset passes the alignment test of the code (its
unsigned 64-bit value is a multiple of the block size, as for every aligned offset
`>= 0`) and whose buffer or out-parameter is not null makes no engine call and
succeeds: `write_cache` and `remove_cache` return OK, `read_cache` returns 0 and
leaves the buffer as it was, `read_cache_zero_copy` returns OK and leaves the
out-parameter as it was. -/
theorem zero_size_noop_unsigned {σ : Type} (E : KvCache σ) (s : σ) (bs : Nat)
    (key : String) (offset : Int) (b : List Byte) (p : Addr) (ttl : Nat)
    (h : of_off_t offset % bs = 0) :
    (traced_cache E bs).write_cache (s, []) key offset 0 (some b) ttl = (Status.OK, (s, [])) ∧
    (traced_cache E bs).read_cache (s, []) key offset 0 (some b) =
      (Except.ok 0, some b, (s, [])) ∧
    (traced_cache E bs).read_cache_zero_copy (s, []) key offset 0 (some p) =
      (Status.OK, some p, (s, [])) ∧
    (traced_cache E bs).remove_cache (s, []) key offset 0 = (Status.OK, (s, [])) := by
  simp [BlockCache.write_cache, BlockCache.read_cache, BlockCache.read_cache_zero_copy,
    BlockCache.remove_cache, traced_cache, h]

/-- C6, at a failing input: with block size 3 the offset -3 is aligned, yet its
unsigned value `2 ^ 64 - 3` leaves the remainder 1, so the calls with `size == 0` do
not succeed: all four operations return InvalidArgument. -/
theorem zero_size_negative_offset_rejected :
    (-3 : Int) % ((3 : Nat) : Int) = 0 ∧
    (traced_cache map_engine 3).write_cache ([], []) "k" (-3) 0 (some [7]) 0 =
      (Status.InvalidArgument "offset must be aligned by block size 3", ([], [])) ∧
    (traced_cache map_engine 3).read_cache ([], []) "k" (-3) 0 (some [7]) =
      (Except.error (Status.InvalidArgument
        "offset and size must be aligned by block size 3"), some [7], ([], [])) ∧
    (traced_cache map_engine 3).read_cache_zero_copy ([], []) "k" (-3) 0 (some 0) =
      (Status.InvalidArgument "offset and size must be aligned by block size 3", some 0,
        ([], [])) ∧
    (traced_cache map_engine 3).remove_cache ([], []) "k" (-3) 0 =
      (Status.InvalidArgument "offset and size must be aligned by block size 3",
        ([], [])) :=
  ⟨by decide, by decide, by decide, by decide, by decide⟩

/-- C7: for a block size `bs > 0`, an aligned offset `>= 0`, a non-null out-parameter
and any `size > 0`, `read_cache_zero_copy` makes exactly one engine call, the
zero-copy get on the sub-key of block `offset / bs`, and returns the status and the
pointer of that call unchanged, however many blocks `[offset, offset + size)`
spans. -/
theorem zero_copy_single_block {σ : Type} (E : KvCache σ) (s : σ) (bs : Nat)
    (key : String) (offset : Int) (size : Nat) (p : Addr)
    (hbs : 0 < bs) (h0 : 0 ≤ offset) (hoff : offset < 2 ^ 63)
    (hal : offset % (bs : Int) = 0) (hsz : 0 < size) :
    (traced_cache E bs).read_cache_zero_copy (s, []) key offset size (some p) =
      ((E.read_cache_zero_copy s (block_key key (offset.toNat / bs)) p).1,
        some (E.read_cache_zero_copy s (block_key key (offset.toNat / bs)) p).2.1,
        ((E.read_cache_zero_copy s (block_key key (offset.toNat / bs)) p).2.2,
          [(EngineCall.get_zero_copy (block_key key (offset.toNat / bs)),
            (E.read_cache_zero_copy s (block_key key (offset.toNat / bs)) p).1)])) := by
  have hlt : offset < 2 ^ 64 := by omega
  have hu := of_off_t_nonneg offset h0 hlt
  have hal2 := aligned_nonneg offset bs h0 hlt hal
  have hs : size ≠ 0 := by omega
  rw [hu] at hal2
  simp [BlockCache.read_cache_zero_copy, traced_cache, traced, hal2, hs, hu]

/-- Witness of C7: block size 4, offset 8 and size 100 (25 blocks): one zero-copy get,
on `k/2`, whose status and pointer are returned. -/
theorem zero_copy_single_block_witness :
    (traced_cache failing_engine 4).read_cache_zero_copy (1, []) "k" 8 100 (some 7) =
      (Status.OK, some 7, (0, [(EngineCall.get_zero_copy "k/2", Status.OK)])) :=
  (zero_copy_single_block failing_engine 1 4 "k" 8 100 7
    (by decide) (by decide) (by decide) (by decide) (by decide)).trans (by decide)

/-! ## Round trip over the map engine -/

theorem map_write_frame (bs : Nat) (key : String) (size : Nat) (b : List Byte) (ttl : Nat)
    (k0 : String) : ∀ (n index off : Nat) (s : List (String × List Byte)),
    (∀ j, j < n → k0 ≠ block_key key (index + j)) →
    (write_blocks (BlockCache.mk bs map_engine) key size b ttl n index off s).2.lookup k0 =
      s.lookup k0 := by
  intro n
  induction n with
  | zero => intro index off s _; rfl
  | succ n ih =>
    intro index off s hne
    have hstep : write_blocks (BlockCache.mk bs map_engine) key size b ttl (n + 1) index off s =
        write_blocks (BlockCache.mk bs map_engine) key size b ttl n (index + 1)
          (wrap64 (off + min (sub64 size off) bs))
          ((block_key key index, (b.drop off).take (min (sub64 size off) bs)) :: s) := rfl
    rw [hstep, ih]
    · have h0 := hne 0 (by omega)
      rw [Nat.add_zero] at h0
      rw [List.lookup_cons]
      have : (k0 == block_key key index) = false := by simpa using h0
      rw [this]
    · intro j hj
      have := hne (j + 1) (by omega)
      have e1 : index + 1 + j = index + (j + 1) := by omega
      rwa [e1]

theorem map_write_blocks (bs : Nat) (key : String) (size : Nat) (b : List Byte) (ttl : Nat)
    (hsz : size < 2 ^ 64) : ∀ (n index off : Nat) (s : List (String × List Byte)),
    (n = 0 ∨ off + (n - 1) * bs < size) →
    (write_blocks (BlockCache.mk bs map_engine) key size b ttl n index off s).1 = Status.OK ∧
    ∀ j, j < n →
      (write_blocks (BlockCache.mk bs map_engine) key size b ttl n index off s).2.lookup
          (block_key key (index + j)) =
        some ((b.drop (off + j * bs)).take (min (size - (off + j * bs)) bs)) := by
  intro n
  induction n with
  | zero => intro index off s _; exact ⟨rfl, fun j hj => absurd hj (Nat.not_lt_zero j)⟩
  | succ n ih =>
    intro index off s h
    have hlt : off + n * bs < size := by
      rcases h with h | h
      · omega
      · simpa using h
    have hoff : off ≤ size := by
      have := Nat.zero_le (n * bs)
      omega
    have hstep : write_blocks (BlockCache.mk bs map_engine) key size b ttl (n + 1) index off s =
        write_blocks (BlockCache.mk bs map_engine) key size b ttl n (index + 1)
          (wrap64 (off + min (sub64 size off) bs))
          ((block_key key index, (b.drop off).take (min (sub64 size off) bs)) :: s) := rfl
    rw [hstep, sub64_of_le size off hoff hsz]
    rcases Nat.eq_zero_or_pos n with hn | hn
    · subst hn
      refine ⟨rfl, ?_⟩
      intro j hj
      have hj0 : j = 0 := by omega
      subst hj0
      simp [write_blocks]
    · have hbsn : bs ≤ n * bs := Nat.le_mul_of_pos_left bs hn
      have hmin : min (size - off) bs = bs := by omega
      have hw : wrap64 (off + bs) = off + bs := by
        unfold wrap64
        apply Nat.mod_eq_of_lt
        omega
      rw [hmin, hw]
      have hih := ih (index + 1) (off + bs)
        ((block_key key index, (b.drop off).take bs) :: s)
        (Or.inr (by
          have e3 : (n - 1) * bs + bs = n * bs := by
            rw [← Nat.succ_mul, Nat.succ_eq_add_one, Nat.sub_add_cancel hn]
          omega))
      refine ⟨hih.1, ?_⟩
      intro j hj
      rcases Nat.eq_zero_or_pos j with hj0 | hj0
      · subst hj0
        rw [map_write_frame]
        · simp [hmin]
        · intro i _ heq
          have := (block_key_inj heq).2
          omega
      · obtain ⟨i, rfl⟩ : ∃ i, j = i + 1 := ⟨j - 1, by omega⟩
        have := hih.2 i (by omega)
        have e1 : index + 1 + i = index + (i + 1) := by omega
        have e2 : off + bs + i * bs = off + (i + 1) * bs := by
          rw [Nat.succ_mul]; omega
        rw [e1, e2] at this
        exact this

theorem copy_into_chunk (b buf : List Byte) (size off len : Nat) (hb : b.length = size)
    (hbuf : size ≤ buf.length) (hlen : off + len ≤ size)
    (hpre : buf.take off = b.take off) :
    (copy_into buf off ((b.drop off).take len)).length = buf.length ∧
    (copy_into buf off ((b.drop off).take len)).take (off + len) = b.take (off + len) := by
  have hl : ((b.drop off).take len).length = len := by
    rw [List.length_take, List.length_drop]; omega
  have ht : ((b.drop off).take len).take (buf.length - off) = (b.drop off).take len := by
    apply List.take_of_length_le
    rw [hl]; omega
  unfold copy_into
  rw [ht, hl]
  constructor
  · simp only [List.length_append, List.length_take, List.length_drop]
    omega
  · have hlen1 : (buf.take off ++ (b.drop off).take len).length = off + len := by
      rw [List.length_append, List.length_take, hl]; omega
    rw [List.take_append_of_le_length (by rw [hlen1]),
      List.take_of_length_le (by rw [hlen1]), hpre, List.take_add]

theorem map_read_blocks (bs : Nat) (key : String) (size : Nat) (b : List Byte)
    (s : List (String × List Byte)) (hbs : 0 < bs) (hsz : size < 2 ^ 64)
    (hb : b.length = size) :
    ∀ (n index off rs : Nat) (buf : List Byte), size ≤ buf.length →
    ((n = 0 ∧ rs = size ∧ buf.take size = b) ∨
      (0 < n ∧ off + (n - 1) * bs < size ∧ size ≤ off + n * bs ∧ rs = off ∧
        buf.take off = b.take off)) →
    (∀ j, j < n → s.lookup (block_key key (index + j)) =
      some ((b.drop (off + j * bs)).take (min (size - (off + j * bs)) bs))) →
    ∃ out, read_blocks (BlockCache.mk bs map_engine) key n index off rs buf s =
        (Except.ok size, out, s) ∧ out.take size = b ∧ out.length = buf.length := by
  intro n
  induction n with
  | zero =>
    intro index off rs buf _ hcase _
    rcases hcase with ⟨_, hrs, htake⟩ | ⟨hn, _⟩
    · exact ⟨buf, by rw [hrs]; rfl, htake, rfl⟩
    · omega
  | succ n ih =>
    intro index off rs buf hbuf hcase hlook
    rcases hcase with ⟨hn, _⟩ | ⟨_, hlt, hge, hrs, hpre⟩
    · omega
    simp only [Nat.add_sub_cancel] at hlt
    have h0 := hlook 0 (by omega)
    simp only [Nat.zero_mul, Nat.add_zero] at h0
    have hstep : read_blocks (BlockCache.mk bs map_engine) key (n + 1) index off rs buf s =
        read_blocks (BlockCache.mk bs map_engine) key n (index + 1) (wrap64 (off + bs))
          (wrap64 (rs + ((b.drop off).take (min (size - off) bs)).length))
          (copy_into buf off ((b.drop off).take (min (size - off) bs))) s := by
      simp [read_blocks, map_engine, h0, Status.ok, Status.OK]
    rw [hstep]
    have hoff : off ≤ size := by
      have := Nat.zero_le (n * bs)
      omega
    have hcl : ((b.drop off).take (min (size - off) bs)).length = min (size - off) bs := by
      rw [List.length_take, List.length_drop]; omega
    obtain ⟨hlen', htake'⟩ := copy_into_chunk b buf size off (min (size - off) bs) hb hbuf
      (by omega) hpre
    rw [hcl]
    rcases Nat.eq_zero_or_pos n with hn | hn
    · subst hn
      have hmin : min (size - off) bs = size - off := by omega
      rw [hmin] at hlen' htake' ⊢
      have e : off + (size - off) = size := by omega
      rw [e] at htake'
      obtain ⟨out, h1, h2, h3⟩ := ih (index + 1) (wrap64 (off + bs)) (wrap64 (rs + (size - off)))
        (copy_into buf off ((b.drop off).take (size - off))) (by rw [hlen']; exact hbuf)
        (Or.inl ⟨rfl, by rw [hrs, e]; exact Nat.mod_eq_of_lt hsz,
          by rw [htake', ← hb, List.take_length]⟩)
        (fun j hj => absurd hj (Nat.not_lt_zero j))
      exact ⟨out, h1, h2, by rw [h3, hlen']⟩
    · have hbsn : bs ≤ n * bs := Nat.le_mul_of_pos_left bs hn
      have hmin : min (size - off) bs = bs := by omega
      rw [hmin] at hlen' htake' ⊢
      have hw : wrap64 (off + bs) = off + bs := by
        unfold wrap64
        apply Nat.mod_eq_of_lt
        omega
      rw [hrs, hw]
      have e3 : (n - 1) * bs + bs = n * bs := by
        rw [← Nat.succ_mul, Nat.succ_eq_add_one, Nat.sub_add_cancel hn]
      have e4 : (n + 1) * bs = n * bs + bs := Nat.succ_mul n bs
      obtain ⟨out, h1, h2, h3⟩ := ih (index + 1) (off + bs) (off + bs)
        (copy_into buf off ((b.drop off).take bs)) (by rw [hlen']; exact hbuf)
        (Or.inr ⟨hn, by omega, by omega, rfl, htake'⟩)
        (by
          intro j hj
          have := hlook (j + 1) (by omega)
          have e1 : index + 1 + j = index + (j + 1) := by omega
          have e2 : off + bs + j * bs = off + (j + 1) * bs := by
            rw [Nat.succ_mul]; omega
          rw [e1, e2]
          exact this)
      exact ⟨out, h1, h2, by rw [h3, hlen']⟩

/-- C1: over the map engine (a put stores the bytes under the sub-key, a get copies
back exactly the stored bytes), for a block size `bs > 0`, an offset `>= 0` that is a
multiple of `bs`, a size `> 0` with `offset + size` below `2 ^ 64`, a buffer `buf` of
`size` bytes and a destination `buf2` of at least `size` bytes: `write_cache` returns
OK, and the `read_cache` of the same range that follows returns `size` and leaves the
first `size` bytes of the destination equal to `buf` (the engine state is the one the
write left). -/
theorem write_read_round_trip (s : List (String × List Byte)) (bs : Nat) (key : String)
    (offset : Int) (size : Nat) (buf buf2 : List Byte) (ttl : Nat)
    (hbs : 0 < bs) (h0 : 0 ≤ offset) (hal : offset % (bs : Int) = 0) (hsz : 0 < size)
    (hov : offset + size < 2 ^ 64) (hbuf : buf.length = size) (hbuf2 : size ≤ buf2.length) :
    ((BlockCache.mk bs map_engine).write_cache s key offset size (some buf) ttl).1 =
      Status.OK ∧
    ∃ out : List Byte,
      (BlockCache.mk bs map_engine).read_cache
          ((BlockCache.mk bs map_engine).write_cache s key offset size (some buf) ttl).2
          key offset size (some buf2) =
        (Except.ok size, some out,
          ((BlockCache.mk bs map_engine).write_cache s key offset size (some buf) ttl).2) ∧
      out.take size = buf ∧ out.length = buf2.length := by
  obtain ⟨hal2, hu, hend, hk⟩ := block_count_no_overflow offset size bs hbs h0 hal hsz hov
  have hsize : size < 2 ^ 64 := by omega
  have hlast := last_block_start_lt size bs hsz
  have hcover := size_le_blocks size bs hbs
  have hn : wrap64 (sub64 (wrap64 (of_off_t offset + size)) 1 / bs + 1) - of_off_t offset / bs =
      (size - 1) / bs + 1 := by rw [hend, hu, hk]
  have hW := write_cache_aligned (BlockCache.mk bs map_engine) s key offset size buf ttl
    hal2 hsz
  simp only [hn] at hW
  obtain ⟨hst, hlook⟩ := map_write_blocks bs key size buf ttl hsize ((size - 1) / bs + 1)
    (of_off_t offset / bs) 0 s (Or.inr (by simpa using hlast))
  rw [← hW] at hst hlook
  refine ⟨hst, ?_⟩
  have hR := read_cache_aligned (BlockCache.mk bs map_engine)
    ((BlockCache.mk bs map_engine).write_cache s key offset size (some buf) ttl).2
    key offset size buf2 hal2 hsz
  simp only [hn] at hR
  obtain ⟨out, h1, h2, h3⟩ := map_read_blocks bs key size buf
    ((BlockCache.mk bs map_engine).write_cache s key offset size (some buf) ttl).2
    hbs hsize hbuf ((size - 1) / bs + 1) (of_off_t offset / bs) 0 0 buf2 hbuf2
    (Or.inr ⟨Nat.succ_pos _, by simpa using hlast, by simpa using hcover, rfl, by simp⟩)
    hlook
  refine ⟨out, ?_, h2, h3⟩
  rw [hR, h1]

/-- Witness of C1: block size 4, the ten bytes 1..10 written at offset 8 (blocks 2, 3
and 4, the last one short) and read back into a buffer of twelve zero bytes. -/
theorem write_read_round_trip_witness :
    (BlockCache.mk 4 map_engine).read_cache
        ((BlockCache.mk 4 map_engine).write_cache [] "k" 8 10
          (some [1, 2, 3, 4, 5, 6, 7, 8, 9, 10]) 0).2
        "k" 8 10 (some [0, 0, 0, 0, 0, 0, 0, 0, 0, 0, 0, 0]) =
      (Except.ok 10, some [1, 2, 3, 4, 5, 6, 7, 8, 9, 10, 0, 0],
        [("k/4", [9, 10]), ("k/3", [5, 6, 7, 8]), ("k/2", [1, 2, 3, 4])]) ∧
    ∃ out : List Byte,
      (BlockCache.mk 4 map_engine).read_cache
          ((BlockCache.mk 4 map_engine).write_cache [] "k" 8 10
            (some [1, 2, 3, 4, 5, 6, 7, 8, 9, 10]) 0).2
          "k" 8 10 (some [0, 0, 0, 0, 0, 0, 0, 0, 0, 0, 0, 0]) =
        (Except.ok 10, some out,
          ((BlockCache.mk 4 map_engine).write_cache [] "k" 8 10
            (some [1, 2, 3, 4, 5, 6, 7, 8, 9, 10]) 0).2) ∧
      out.take 10 = [1, 2, 3, 4, 5, 6, 7, 8, 9, 10] ∧ out.length = 12 :=
  ⟨by decide,
    (write_read_round_trip [] 4 "k" 8 10 [1, 2, 3, 4, 5, 6, 7, 8, 9, 10]
      [0, 0, 0, 0, 0, 0, 0, 0, 0, 0, 0, 0] 0
      (by decide) (by decide) (by decide) (by decide) (by decide) (by decide)
      (by decide)).2⟩

/-! ## StoragePageCache -/

/-- C10: for every key, data and flag, `StoragePageCache::insert` makes exactly one
insert call on the backing store, with the encoded key, the caller's data and its
size, the deleter, and the priority DURABLE when `in_memory` is true and NORMAL
otherwise; the handle the caller receives wraps exactly the handle the store
returned.  (The only other store call is the release of the handle the caller's
object held before, if it held one.) -/
theorem insert_priority_tagging {τ κ : Type} (S : Cache τ) (encode : κ → String) (t : τ)
    (key : κ) (data : List Byte) (handle : PageCacheHandle) (in_memory : Bool) :
    ((StoragePageCache.mk (traced_store S) encode).insert (t, []) key data handle
        in_memory).2.2 =
      StoreCall.insert (encode key) data data.length Deleter.delete_uint8_array
          (if in_memory then CachePriority.DURABLE else CachePriority.NORMAL) ::
        (match handle._handle with
          | none => []
          | some h_old => [StoreCall.release h_old]) ∧
    ((StoragePageCache.mk (traced_store S) encode).insert (t, []) key data handle
        in_memory).1 =
      PageCacheHandle.mk (some (S.insert t (encode key) data data.length
        Deleter.delete_uint8_array
        (if in_memory then CachePriority.DURABLE else CachePriority.NORMAL)).1) ∧
    ((if in_memory then CachePriority.DURABLE else CachePriority.NORMAL) =
      CachePriority.DURABLE ↔ in_memory = true) ∧
    ((if in_memory then CachePriority.DURABLE else CachePriority.NORMAL) =
      CachePriority.NORMAL ↔ in_memory = false) := by
  refine ⟨?_, ?_, ?_, ?_⟩
  · cases hh : handle._handle <;>
      simp [StoragePageCache.insert, assign_handle, traced_store, hh]
  · cases hh : handle._handle <;>
      simp [StoragePageCache.insert, assign_handle, traced_store, hh]
  · cases in_memory <;> simp
  · cases in_memory <;> simp

theorem evict_last_keeps_head (p : CachePriority) (e : LruEntry) (rest : List LruEntry)
    (h : e.refs ≠ 0) (out : List LruEntry) (ho : evict_last p (e :: rest) = some out) :
    ∃ rest2, out = e :: rest2 := by
  have hev : e.evictable p = false := by
    simp [LruEntry.evictable, h]
  simp only [evict_last, hev] at ho
  cases hr : evict_last p rest with
  | none => rw [hr] at ho; simp at ho
  | some r2 =>
    rw [hr] at ho
    simp only [Option.some.injEq] at ho
    exact ⟨r2, ho.symm⟩

theorem lru_evict_keeps_head (capacity : Nat) (e : LruEntry) (h : e.refs ≠ 0) :
    ∀ (fuel : Nat) (rest : List LruEntry),
      ∃ rest2, lru_evict capacity fuel (e :: rest) = e :: rest2 := by
  intro fuel
  induction fuel with
  | zero => intro rest; exact ⟨rest, rfl⟩
  | succ fuel ih =>
    intro rest
    simp only [lru_evict]
    split
    · exact ⟨rest, rfl⟩
    · split
      · next out ho =>
        obtain ⟨r2, hr2⟩ := evict_last_keeps_head _ e rest h out ho
        rw [hr2]; exact ih r2
      · split
        · next out ho =>
          obtain ⟨r2, hr2⟩ := evict_last_keeps_head _ e rest h out ho
          rw [hr2]; exact ih r2
        · exact ⟨rest, rfl⟩


theorem front_after_insert (t : LruStore) (k : String) (v : List Byte) (charge : Nat)
    (d : Deleter) (p : CachePriority) :
    front_entry (lru_store.insert t k v charge d p).2 (lru_store.insert t k v charge d p).1
      k v := by
  obtain ⟨rest2, hr⟩ := lru_evict_keeps_head t.capacity
    (LruEntry.mk t.next_handle k v charge p 1 true) Nat.one_ne_zero (t.entries.length + 1)
    (t.entries.filterMap (lru_replace k))
  exact ⟨_, rest2, hr, rfl, rfl, rfl, rfl⟩

theorem front_after_release (t : LruStore) (h : LruHandle) (k : String) (v : List Byte)
    (h_old : LruHandle) (hf : front_entry t h k v) :
    front_entry (lru_store.release t h_old) h k v := by
  obtain ⟨e, rest, he, h1, h2, h3, h4⟩ := hf
  have hrel : (lru_store.release t h_old).entries =
      ((e :: rest).map
        (fun e => if e.handle = h_old then { e with refs := e.refs - 1 } else e)).filter
        (fun e => e.in_cache || decide (e.refs ≠ 0)) := by
    rw [← he]; rfl
  by_cases hc : e.handle = h_old
  · refine ⟨{ e with refs := e.refs - 1 }, (rest.map
        (fun e => if e.handle = h_old then { e with refs := e.refs - 1 } else e)).filter
        (fun e => e.in_cache || decide (e.refs ≠ 0)), ?_, h1, h2, h3, h4⟩
    rw [hrel]
    simp [hc, h4]
  · refine ⟨e, (rest.map
        (fun e => if e.handle = h_old then { e with refs := e.refs - 1 } else e)).filter
        (fun e => e.in_cache || decide (e.refs ≠ 0)), ?_, h1, h2, h3, h4⟩
    rw [hrel]
    simp [hc, h4]

theorem front_after_assign (t : LruStore) (h : LruHandle) (k : String) (v : List Byte)
    (old : PageCacheHandle) (h_new : LruHandle) (hf : front_entry t h k v) :
    front_entry (assign_handle lru_store t old h_new).2 h k v ∧
    (assign_handle lru_store t old h_new).1 = PageCacheHandle.mk (some h_new) := by
  unfold assign_handle
  cases old._handle with
  | none => exact ⟨hf, rfl⟩
  | some h_old => exact ⟨front_after_release t h k v h_old hf, rfl⟩

theorem lookup_front (t : LruStore) (h : LruHandle) (k : String) (v : List Byte)
    (hf : front_entry t h k v) :
    (lru_store.lookup t k).1 = some h ∧ front_entry (lru_store.lookup t k).2 h k v := by
  obtain ⟨e, rest, he, h1, h2, h3, h4⟩ := hf
  have hfind : t.entries.find? (fun e => e.in_cache && decide (e.key = k)) = some e := by
    rw [he]; simp [h2, h4]
  simp only [lru_store, hfind]
  exact ⟨by rw [h1], ⟨_, _, rfl, h1, h2, h3, h4⟩⟩

theorem value_of_front (t : LruStore) (h : LruHandle) (k : String) (v : List Byte)
    (hf : front_entry t h k v) : lru_store.value_slice t h = v := by
  obtain ⟨e, rest, he, h1, h2, h3, h4⟩ := hf
  simp [lru_store, he, h1, h3]

/-- C9: over the LRU store model, for every store state, key and data, after
`insert(key, data, &h, in_memory = false)` a `lookup(key, &h2)` returns true and `h2`
gives access to bytes equal to `data` (insert and lookup address the store by the same
encoded key, and the entry is not evicted in between: the handle `h` is alive); and
over any store, when the store reports a miss, `lookup` returns false and leaves the
caller's handle as it was. -/
theorem insert_then_lookup {κ : Type} (encode : κ → String) (t : LruStore) (key : κ)
    (data : List Byte) (h h2 : PageCacheHandle) :
    (((StoragePageCache.mk lru_store encode).lookup
        ((StoragePageCache.mk lru_store encode).insert t key data h false).2 key h2).1 =
        true ∧
      PageCacheHandle.data lru_store
        ((StoragePageCache.mk lru_store encode).lookup
          ((StoragePageCache.mk lru_store encode).insert t key data h false).2 key h2).2.2
        ((StoragePageCache.mk lru_store encode).lookup
          ((StoragePageCache.mk lru_store encode).insert t key data h false).2 key h2).2.1 =
        data) ∧
    (∀ (τ : Type) (S : Cache τ) (s : τ) (k : κ) (hd : PageCacheHandle),
      (S.lookup s (encode k)).1 = none →
      (StoragePageCache.mk S encode).lookup s k hd =
        (false, hd, (S.lookup s (encode k)).2)) := by
  constructor
  · have hi := front_after_insert t (encode key) data data.length
      Deleter.delete_uint8_array CachePriority.NORMAL
    have ha := (front_after_assign _ _ _ _ h
      (lru_store.insert t (encode key) data data.length Deleter.delete_uint8_array
        CachePriority.NORMAL).1 hi).1
    have hins : ((StoragePageCache.mk lru_store encode).insert t key data h false).2 =
        (assign_handle lru_store
          (lru_store.insert t (encode key) data data.length Deleter.delete_uint8_array
            CachePriority.NORMAL).2 h
          (lru_store.insert t (encode key) data data.length Deleter.delete_uint8_array
            CachePriority.NORMAL).1).2 := rfl
    rw [hins]
    generalize (assign_handle lru_store
          (lru_store.insert t (encode key) data data.length Deleter.delete_uint8_array
            CachePriority.NORMAL).2 h
          (lru_store.insert t (encode key) data data.length Deleter.delete_uint8_array
            CachePriority.NORMAL).1).2 = t1 at ha ⊢
    generalize (lru_store.insert t (encode key) data data.length Deleter.delete_uint8_array
            CachePriority.NORMAL).1 = hn at ha
    obtain ⟨hl1, hl2⟩ := lookup_front t1 hn (encode key) data ha
    have hlk : (StoragePageCache.mk lru_store encode).lookup t1 key h2 =
        (true, (assign_handle lru_store (lru_store.lookup t1 (encode key)).2 h2 hn).1,
          (assign_handle lru_store (lru_store.lookup t1 (encode key)).2 h2 hn).2) := by
      simp only [StoragePageCache.lookup, hl1]
    obtain ⟨ha2, hv⟩ := front_after_assign _ hn (encode key) data h2 hn hl2
    rw [hlk]
    refine ⟨rfl, ?_⟩
    simp only [hv, PageCacheHandle.data]
    exact value_of_front _ hn (encode key) data ha2
  · intro τ S s k hd hmiss
    simp only [StoragePageCache.lookup, hmiss]

/-- The scenario of the spec on the LRU store model, capacity 1000: after A (charge
600) is inserted and its handle released, inserting B (charge 600) evicts A; while
the handle of A is held, inserting B evicts nothing and A stays. -/
theorem lru_store_scenario :
    (lru_store.insert
        (lru_store.release
          (lru_store.insert (LruStore.mk 1000 [] 0) "A" [1] 600 Deleter.delete_uint8_array
            CachePriority.NORMAL).2 0)
        "B" [2] 600 Deleter.delete_uint8_array CachePriority.NORMAL).2 =
      LruStore.mk 1000 [LruEntry.mk 1 "B" [2] 600 CachePriority.NORMAL 1 true] 2 ∧
    (lru_store.insert
        (lru_store.insert (LruStore.mk 1000 [] 0) "A" [1] 600 Deleter.delete_uint8_array
          CachePriority.NORMAL).2
        "B" [2] 600 Deleter.delete_uint8_array CachePriority.NORMAL).2 =
      LruStore.mk 1000
        [LruEntry.mk 1 "B" [2] 600 CachePriority.NORMAL 1 true,
         LruEntry.mk 0 "A" [1] 600 CachePriority.NORMAL 1 true] 2 :=
  ⟨by decide, by decide⟩

/-! ## Entries with live handles -/

theorem evict_last_shape (p : CachePriority) : ∀ (l out : List LruEntry),
    evict_last p l = some out →
    ∃ l1 x l2, l = l1 ++ x :: l2 ∧ out = l1 ++ l2 ∧ x.evictable p = true := by
  intro l
  induction l with
  | nil => intro out h; simp [evict_last] at h
  | cons e rest ih =>
    intro out h
    simp only [evict_last] at h
    cases hr : evict_last p rest with
    | some r2 =>
      rw [hr] at h
      simp only [Option.some.injEq] at h
      obtain ⟨l1, x, l2, h1, h2, h3⟩ := ih r2 hr
      exact ⟨e :: l1, x, l2, by rw [h1]; rfl, by rw [← h, h2]; rfl, h3⟩
    | none =>
      rw [hr] at h
      by_cases hev : e.evictable p = true
      · rw [if_pos hev] at h
        simp only [Option.some.injEq] at h
        exact ⟨[], e, rest, rfl, by rw [← h]; rfl, hev⟩
      · rw [if_neg hev] at h
        cases h

theorem evictable_refs (e : LruEntry) (p : CachePriority) (h : e.evictable p = true) :
    e.refs = 0 ∧ e.in_cache = true := by
  simp only [LruEntry.evictable, Bool.and_eq_true, decide_eq_true_eq] at h
  exact ⟨h.1.2, h.1.1⟩

theorem evict_last_mem (p : CachePriority) (l out : List LruEntry)
    (h : evict_last p l = some out) :
    (∀ e ∈ l, e.refs ≠ 0 → e ∈ out) ∧
    (∀ e ∈ l, e ∉ out → e.refs = 0 ∧ e.in_cache = true) ∧ (∀ e ∈ out, e ∈ l) := by
  obtain ⟨l1, x, l2, h1, h2, h3⟩ := evict_last_shape p l out h
  have hx := evictable_refs x p h3
  subst h1 h2
  have key : ∀ e ∈ l1 ++ x :: l2, e ∉ l1 ++ l2 → e = x := by
    intro e he hne
    simp only [List.mem_append, List.mem_cons] at he hne
    rcases he with h | h | h
    · exact absurd (Or.inl h) hne
    · exact h
    · exact absurd (Or.inr h) hne
  refine ⟨?_, ?_, ?_⟩
  · intro e he hrefs
    by_contra hne
    rw [key e he hne] at hrefs
    exact hrefs hx.1
  · intro e he hne
    rw [key e he hne]
    exact hx
  · intro e he
    simp only [List.mem_append, List.mem_cons] at he ⊢
    rcases he with h | h
    · exact Or.inl h
    · exact Or.inr (Or.inr h)

theorem lru_evict_mem (capacity : Nat) : ∀ (fuel : Nat) (l : List LruEntry),
    (∀ e ∈ l, e.refs ≠ 0 → e ∈ lru_evict capacity fuel l) ∧
    (∀ e ∈ l, e ∉ lru_evict capacity fuel l → e.refs = 0 ∧ e.in_cache = true) := by
  intro fuel
  induction fuel with
  | zero =>
    intro l
    exact ⟨fun e he _ => he, fun e he hne => absurd he hne⟩
  | succ fuel ih =>
    intro l
    simp only [lru_evict]
    split
    · exact ⟨fun e he _ => he, fun e he hne => absurd he hne⟩
    · split
      · next out ho =>
        obtain ⟨m1, m2, _⟩ := evict_last_mem _ l out ho
        refine ⟨fun e he hr => (ih out).1 e (m1 e he hr) hr, ?_⟩
        intro e he hne
        by_cases hin : e ∈ out
        · exact (ih out).2 e hin hne
        · exact m2 e he hin
      · split
        · next out ho =>
          obtain ⟨m1, m2, _⟩ := evict_last_mem _ l out ho
          refine ⟨fun e he hr => (ih out).1 e (m1 e he hr) hr, ?_⟩
          intro e he hne
          by_cases hin : e ∈ out
          · exact (ih out).2 e hin hne
          · exact m2 e he hin
        · exact ⟨fun e he _ => he, fun e he hne => absurd he hne⟩

theorem entry_after_refl (e : LruEntry) : entry_after e e 0 :=
  ⟨rfl, rfl, rfl, rfl, rfl, rfl⟩

theorem entry_after_trans (e1 e2 e3 : LruEntry) (j k : Nat) (h12 : entry_after e1 e2 j)
    (h23 : entry_after e2 e3 k) : entry_after e1 e3 (j + k) := by
  obtain ⟨a1, a2, a3, a4, a5, a6⟩ := h12
  obtain ⟨b1, b2, b3, b4, b5, b6⟩ := h23
  exact ⟨b1.trans a1, b2.trans a2, b3.trans a3, b4.trans a4, b5.trans a5, by omega⟩

theorem live_after_store_insert (t : LruStore) (k : String) (v : List Byte) (charge : Nat)
    (d : Deleter) (p : CachePriority) (e : LruEntry) (he : e ∈ t.entries)
    (hlive : e.refs ≠ 0) :
    ∃ e2 ∈ (lru_store.insert t k v charge d p).2.entries, entry_after e e2 0 := by
  have hrep : ∃ e2, lru_replace k e = some e2 ∧ entry_after e e2 0 := by
    unfold lru_replace
    by_cases hc : (e.in_cache && decide (e.key = k)) = true
    · rw [if_pos hc, if_neg hlive]
      exact ⟨_, rfl, rfl, rfl, rfl, rfl, rfl, rfl⟩
    · rw [if_neg hc]
      exact ⟨e, rfl, entry_after_refl e⟩
  obtain ⟨e2, h2, ha⟩ := hrep
  have hmem : e2 ∈ LruEntry.mk t.next_handle k v charge p 1 true ::
      t.entries.filterMap (lru_replace k) :=
    List.mem_cons_of_mem _ (List.mem_filterMap.mpr ⟨e, he, h2⟩)
  have hrefs : e2.refs ≠ 0 := by
    have := ha.2.2.2.2.2
    omega
  exact ⟨e2, (lru_evict_mem t.capacity (t.entries.length + 1) _).1 e2 hmem hrefs, ha⟩

theorem live_after_release (t : LruStore) (h_old : LruHandle) (e : LruEntry)
    (he : e ∈ t.entries) (hlive : (if e.handle = h_old then 1 else 0) < e.refs) :
    ∃ e2 ∈ (lru_store.release t h_old).entries,
      entry_after e e2 (if e.handle = h_old then 1 else 0) := by
  have hrel : (lru_store.release t h_old).entries =
      (t.entries.map
        (fun e => if e.handle = h_old then { e with refs := e.refs - 1 } else e)).filter
        (fun e => e.in_cache || decide (e.refs ≠ 0)) := rfl
  rw [hrel]
  by_cases hc : e.handle = h_old
  · rw [if_pos hc] at hlive ⊢
    refine ⟨{ e with refs := e.refs - 1 }, ?_, rfl, rfl, rfl, rfl, rfl, ?_⟩
    · rw [List.mem_filter]
      refine ⟨List.mem_map.mpr ⟨e, he, by rw [if_pos hc]⟩, ?_⟩
      have : e.refs - 1 ≠ 0 := by omega
      simp [this]
    · show e.refs - 1 + 1 = e.refs
      omega
  · rw [if_neg hc] at hlive ⊢
    refine ⟨e, ?_, entry_after_refl e⟩
    rw [List.mem_filter]
    refine ⟨List.mem_map.mpr ⟨e, he, by rw [if_neg hc]⟩, ?_⟩
    have : e.refs ≠ 0 := by omega
    simp [this]

theorem live_after_op {κ : Type} (encode : κ → String) (op : PageCacheOp κ) (t : LruStore)
    (e : LruEntry) (he : e ∈ t.entries) (hlive : op.releases e.handle < e.refs) :
    ∃ e2 ∈ (apply_op (StoragePageCache.mk lru_store encode) t op).entries,
      entry_after e e2 (op.releases e.handle) := by
  cases op with
  | set_capacity capacity =>
    have hrefs : e.refs ≠ 0 := by omega
    exact ⟨e, (lru_evict_mem capacity t.entries.length t.entries).1 e he hrefs,
      entry_after_refl e⟩
  | insert key data handle in_memory =>
    have hrefs : e.refs ≠ 0 := by omega
    obtain ⟨e1, h1, ha1⟩ := live_after_store_insert t (encode key) data data.length
      Deleter.delete_uint8_array
      (if in_memory then CachePriority.DURABLE else CachePriority.NORMAL) e he hrefs
    have happ : apply_op (StoragePageCache.mk lru_store encode) t
        (PageCacheOp.insert key data handle in_memory) =
        (assign_handle lru_store
          (lru_store.insert t (encode key) data data.length Deleter.delete_uint8_array
            (if in_memory then CachePriority.DURABLE else CachePriority.NORMAL)).2 handle
          (lru_store.insert t (encode key) data data.length Deleter.delete_uint8_array
            (if in_memory then CachePriority.DURABLE else CachePriority.NORMAL)).1).2 := rfl
    rw [happ]
    simp only [PageCacheOp.releases] at hlive ⊢
    unfold assign_handle
    cases hh : handle._handle with
    | none =>
      rw [hh] at hlive
      simp only [reduceCtorEq, if_false] at hlive ⊢
      exact ⟨e1, h1, ha1⟩
    | some h_old =>
      rw [hh] at hlive
      simp only [Option.some.injEq] at hlive ⊢
      have hh1 : e1.handle = e.handle := ha1.1
      have hr1 : e1.refs = e.refs := by
        have := ha1.2.2.2.2.2
        omega
      have hcond : (if e1.handle = h_old then 1 else 0) = (if h_old = e.handle then 1 else 0) := by
        rw [hh1]
        by_cases hc : e.handle = h_old
        · rw [if_pos hc, if_pos hc.symm]
        · rw [if_neg hc, if_neg (fun h => hc h.symm)]
      obtain ⟨e2, h2, ha2⟩ := live_after_release _ h_old e1 h1 (by rw [hcond, hr1]; exact hlive)
      rw [hcond] at ha2
      have := entry_after_trans e e1 e2 0 _ ha1 ha2
      rw [Nat.zero_add] at this
      exact ⟨e2, h2, this⟩

theorem live_after_ops {κ : Type} (encode : κ → String) :
    ∀ (ops : List (PageCacheOp κ)) (t : LruStore) (e : LruEntry), e ∈ t.entries →
    releases_of e.handle ops < e.refs →
    ∃ e2 ∈ (run_ops (StoragePageCache.mk lru_store encode) t ops).entries,
      entry_after e e2 (releases_of e.handle ops) := by
  intro ops
  induction ops with
  | nil => intro t e he _; exact ⟨e, he, entry_after_refl e⟩
  | cons op rest ih =>
    intro t e he hlive
    simp only [releases_of] at hlive ⊢
    obtain ⟨e1, h1, ha1⟩ := live_after_op encode op t e he (by omega)
    have hh1 : e1.handle = e.handle := ha1.1
    have hr1 : e1.refs + op.releases e.handle = e.refs := ha1.2.2.2.2.2
    obtain ⟨e2, h2, ha2⟩ := ih (apply_op (StoragePageCache.mk lru_store encode) t op) e1 h1
      (by rw [hh1]; omega)
    rw [hh1] at ha2
    exact ⟨e2, h2, entry_after_trans e e1 e2 _ _ ha1 ha2⟩

theorem releases_of_take_le {κ : Type} (h : LruHandle) :
    ∀ (ops : List (PageCacheOp κ)) (n : Nat),
      releases_of h (ops.take n) ≤ releases_of h ops := by
  intro ops
  induction ops with
  | nil => intro n; simp [releases_of]
  | cons op rest ih =>
    intro n
    cases n with
    | zero => simp [releases_of]
    | succ n =>
      simp only [List.take_succ_cons, releases_of]
      have := ih n
      omega

/-- C11: over the LRU store model, for every store state, every sequence of `insert`
and `set_capacity` calls on the page cache and every entry `e` of the store that keeps
a live handle (the calls destroy fewer handles to `e` than `e` has references; a call
destroys a handle only when an `insert` overwrites a handle object that held it): at
every point of the sequence `e` is still in the store, with its handle, key, value,
charge and priority, never evicted or freed.  What capacity pressure reclaims has
reference count zero: an entry missing after a `set_capacity` had no reference and was
in the cache, and an entry missing after an `insert` had no reference left once the
overwritten handle was destroyed.  (An entry inserted during the sequence is covered
from the state it was inserted in.) -/
theorem live_handle_invariant {κ : Type} (encode : κ → String)
    (ops : List (PageCacheOp κ)) (t : LruStore) (e : LruEntry) (he : e ∈ t.entries)
    (hlive : releases_of e.handle ops < e.refs) :
    (∀ n, ∃ e2 ∈ (run_ops (StoragePageCache.mk lru_store encode) t (ops.take n)).entries,
      entry_after e e2 (releases_of e.handle (ops.take n))) ∧
    (∀ (capacity : Nat) (x : LruEntry), x ∈ t.entries →
      x ∉ ((StoragePageCache.mk lru_store encode).set_capacity t capacity).entries →
      x.refs = 0 ∧ x.in_cache = true) ∧
    (∀ (key : κ) (data : List Byte) (handle : PageCacheHandle) (in_memory : Bool)
      (x : LruEntry), x ∈ t.entries →
      (∀ x2 ∈ ((StoragePageCache.mk lru_store encode).insert t key data handle
        in_memory).2.entries, x2.handle ≠ x.handle) →
      x.refs ≤ (if handle._handle = some x.handle then 1 else 0)) := by
  refine ⟨?_, ?_, ?_⟩
  · intro n
    exact live_after_ops encode (ops.take n) t e he
      (Nat.lt_of_le_of_lt (releases_of_take_le e.handle ops n) hlive)
  · intro capacity x hx hne
    exact (lru_evict_mem capacity t.entries.length t.entries).2 x hx hne
  · intro key data handle in_memory x hx hall
    by_contra hlt
    obtain ⟨e2, h2, ha⟩ := live_after_op encode
      (PageCacheOp.insert key data handle in_memory) t x hx (by
        simp only [PageCacheOp.releases]
        omega)
    exact hall e2 h2 ha.1

/-- Witness of C11: capacity 10, the store holds A (charge 6) with one live handle;
B (charge 6) is inserted, the capacity is set to 0, and a new page is inserted under
the key of A through the handle object that held B.  A is never evicted: at the end
it is still in the store, out of the cache, with its value and its reference. -/
theorem live_handle_invariant_witness :
    run_ops (StoragePageCache.mk lru_store id)
        (LruStore.mk 10 [LruEntry.mk 0 "A" [1, 2, 3, 4, 5, 6] 6 CachePriority.NORMAL 1 true] 1)
        [PageCacheOp.insert "B" [7, 8, 9, 10, 11, 12] (PageCacheHandle.mk none) false,
         PageCacheOp.set_capacity 0,
         PageCacheOp.insert "A" [0] (PageCacheHandle.mk (some 1)) true] =
      LruStore.mk 0
        [LruEntry.mk 2 "A" [0] 1 CachePriority.DURABLE 1 true,
         LruEntry.mk 1 "B" [7, 8, 9, 10, 11, 12] 6 CachePriority.NORMAL 0 true,
         LruEntry.mk 0 "A" [1, 2, 3, 4, 5, 6] 6 CachePriority.NORMAL 1 false] 3 ∧
    ∃ e2 ∈ (run_ops (StoragePageCache.mk lru_store id)
        (LruStore.mk 10 [LruEntry.mk 0 "A" [1, 2, 3, 4, 5, 6] 6 CachePriority.NORMAL 1 true] 1)
        ([PageCacheOp.insert "B" [7, 8, 9, 10, 11, 12] (PageCacheHandle.mk none) false,
         PageCacheOp.set_capacity 0,
         PageCacheOp.insert "A" [0] (PageCacheHandle.mk (some 1)) true].take 3)).entries,
      entry_after (LruEntry.mk 0 "A" [1, 2, 3, 4, 5, 6] 6 CachePriority.NORMAL 1 true) e2
        (releases_of 0
          ([PageCacheOp.insert "B" [7, 8, 9, 10, 11, 12] (PageCacheHandle.mk none) false,
           PageCacheOp.set_capacity 0,
           PageCacheOp.insert "A" [0] (PageCacheHandle.mk (some 1)) true].take 3)) :=
  ⟨by decide,
    (live_handle_invariant id
      [PageCacheOp.insert "B" [7, 8, 9, 10, 11, 12] (PageCacheHandle.mk none) false,
       PageCacheOp.set_capacity 0,
       PageCacheOp.insert "A" [0] (PageCacheHandle.mk (some 1)) true]
      (LruStore.mk 10 [LruEntry.mk 0 "A" [1, 2, 3, 4, 5, 6] 6 CachePriority.NORMAL 1 true] 1)
      (LruEntry.mk 0 "A" [1, 2, 3, 4, 5, 6] 6 CachePriority.NORMAL 1 true)
      (by decide) (by decide)).1 3⟩

/-! ## Successful writes over the whole offset range -/

/-- A write that returns OK is complete when the range does not wrap: for a block size
`bs > 0`, an offset `>= 0`, a size `> 0` with `offset + size` below `2 ^ 64`, a buffer
of at least `size` bytes and an engine whose puts all succeed, if `write_cache` returns
OK then it made at least one put and the payloads of its puts, in order, concatenate to
`buffer[0 .. size)`. -/
theorem successful_write_complete {σ : Type} (E : KvCache σ) (s : σ) (bs : Nat)
    (key : String) (offset : Int) (size : Nat) (b : List Byte) (ttl : Nat)
    (hbs : 0 < bs) (h0 : 0 ≤ offset) (hsz : 0 < size) (hov : offset + size < 2 ^ 64)
    (hlen : size ≤ b.length) (hE : ∀ s k v t, (E.write_cache s k v t).1.ok = true)
    (hok : ((traced_cache E bs).write_cache (s, []) key offset size (some b) ttl).1 =
      Status.OK) :
    ((traced_cache E bs).write_cache (s, []) key offset size (some b) ttl).2.2 ≠ [] ∧
    ((((traced_cache E bs).write_cache (s, []) key offset size (some b) ttl).2.2).map
      (fun e => e.1.payload)).flatten = b.take size := by
  by_cases hal : of_off_t offset % bs = 0
  · have hu := of_off_t_nonneg offset h0 (by omega)
    have hov2 : offset.toNat + size < 2 ^ 64 := by omega
    have hend := end_block_no_overflow offset.toNat size bs hsz hov2
    have hcount := block_count_aligned offset.toNat size bs hbs hsz (by rw [← hu]; exact hal)
    obtain ⟨n, hn, h2, h3⟩ := write_run_log E s bs key offset size b ttl hal hsz
    rw [hu, hend, hcount] at hn
    have hputs := puts_succeed_of_engine E hE s bs key offset size (some b) ttl
    have hlen2 := (fail_fast_all_ok _ _ _ h3 hputs).1
    have hlast := last_block_start_lt size bs hsz
    have hcover := size_le_blocks size bs hbs
    have hclosed := write_calls_closed bs key size b ttl (by omega) n (of_off_t offset / bs) 0
      (Or.inr (by rw [hn]; simpa using hlast))
    rw [hlen2, List.take_of_length_le (le_of_eq (write_calls_length bs key size b ttl n _ 0)),
      hclosed] at h2
    simp only [Nat.zero_add] at h2
    constructor
    · intro hnil
      rw [hnil, hn] at hlen2
      exact Nat.succ_ne_zero _ hlen2.symm
    · have hm : (((traced_cache E bs).write_cache (s, []) key offset size (some b) ttl).2.2).map
          (fun e => e.1.payload) =
          ((((traced_cache E bs).write_cache (s, []) key offset size (some b) ttl).2.2).map
            Prod.fst).map EngineCall.payload := by
        simp [List.map_map, Function.comp_def]
      rw [hm, h2, payload_map, chunks_flatten, hn, Nat.min_eq_right hcover]
  · have hrej := (misaligned_unsigned_rejected E s bs key offset size (some b) none ttl hal).1
    rw [hrej] at hok
    cases hok

/-- C12, at a failing input: block size 4096, offset -4096 (aligned), size 8192 and a
buffer of 8192 bytes over the map engine, whose puts all succeed.  In unsigned 64-bit
arithmetic the start block is `2 ^ 52 - 1` and the end block is 1, so the loop body
never runs: `write_cache` returns OK without a single put, and nothing of the buffer
is stored. -/
theorem write_across_zero_writes_nothing :
    (traced_cache map_engine 4096).write_cache ([], []) "k" (-4096) 8192
        (some (List.replicate 8192 0)) 0 = (Status.OK, ([], [])) ∧
    of_off_t (-4096) % 4096 = 0 ∧
    of_off_t (-4096) / 4096 = 2 ^ 52 - 1 ∧
    wrap64 (sub64 (wrap64 (of_off_t (-4096) + 8192)) 1 / 4096 + 1) = 1 ∧
    (List.replicate 8192 (0 : Byte)).take 8192 ≠ [] :=
  ⟨by decide, by decide, by decide, by decide, by
    intro h
    have := congrArg List.length h
    rw [List.length_take, List.length_replicate] at this
    simp at this⟩

end starrocks
